import Mathlib

/-
Verification of the NLL blame-path diagnostic engine
(`borrow_check/nll/region_infer/error_reporting/mod.rs`).

The engine is embedded shallowly:
* region variables (`RegionVid`) are `Nat`;
* spans are `Nat` (the `locations` field of a constraint stands for the
  span that `locations.span(mir)` resolves to);
* the constraint graph, SCC partition and the external collaborators
  (naming service, nice-region-error path, type-level queries) are
  explicit data / function parameters, following the interfaces the spec
  assigns to them;
* the `.unwrap()` / `bug!` panics of the source are modelled by explicit
  result constructors, and the BFS loop carries a fuel argument whose
  irrelevance (for fuel past the graph size) is proved separately.
-/

set_option maxHeartbeats 1000000

/-- Category of an outlives constraint, as enumerated by the spec and by the
`Display` impl in the source.  `TypeAnnot` renders the source's type-annotation
category under a shorter name. -/
inductive ConstraintCategory where
  | Assignment
  | Return
  | Cast
  | CallArgument
  | TypeAnnot
  | ClosureBounds
  | SizedBound
  | CopyBound
  | OpaqueType
  | Boring
  | BoringNoLocation
  | Internal
deriving DecidableEq

/-- Modelled from the spec: the fixed total order over the category
enumeration used by the fallback sort (the `Ord` derivation on the enum lives
outside the provided sources; the spec fixes the enumeration order). -/
def catOrd : ConstraintCategory → Nat
  | ConstraintCategory.Assignment => 0
  | ConstraintCategory.Return => 1
  | ConstraintCategory.Cast => 2
  | ConstraintCategory.CallArgument => 3
  | ConstraintCategory.TypeAnnot => 4
  | ConstraintCategory.ClosureBounds => 5
  | ConstraintCategory.SizedBound => 6
  | ConstraintCategory.CopyBound => 7
  | ConstraintCategory.OpaqueType => 8
  | ConstraintCategory.Boring => 9
  | ConstraintCategory.BoringNoLocation => 10
  | ConstraintCategory.Internal => 11

/-- A directed outlives edge `sup -> sub`; `locations` stands for the span the
source resolves out of the constraint's `Locations` value. -/
structure OutlivesConstraint where
  sup : Nat
  sub : Nat
  category : ConstraintCategory
  locations : Nat
deriving DecidableEq

/-- The read-only data the region inference context supplies to the error
reporting module: number of region definitions, the constraint set, the
distinguished static region and the SCC (equivalence-group) partition. -/
structure ConstraintGraph where
  numRegions : Nat
  constraints : List OutlivesConstraint
  fr_static : Nat
  scc : Nat → Nat

/-- Well-formedness of the inference context: the static region and all
constraint endpoints are genuine region definitions. -/
def ConstraintGraph.WF (g : ConstraintGraph) : Prop :=
  g.fr_static < g.numRegions ∧
    ∀ c ∈ g.constraints, c.sup < g.numRegions ∧ c.sub < g.numRegions

/-- Modelled from the spec: `constraint_graph.outgoing_edges(r, constraints,
fr_static)` (the constraint-graph collaborator is outside the provided
sources).  It yields the stored constraints with `sup = r` plus the implicit
bookkeeping edge from `r` to the static sentinel region. -/
def outgoingEdges (g : ConstraintGraph) (r : Nat) : List OutlivesConstraint :=
  g.constraints.filter (fun c => c.sup = r) ++
    [{ sup := r, sub := g.fr_static, category := ConstraintCategory.Internal,
       locations := 0 }]

/-- Per-region BFS bookkeeping, as in the source. -/
inductive Trace where
  | StartRegion
  | FromOutlivesConstraint (c : OutlivesConstraint)
  | NotVisited
deriving DecidableEq

/-- Result of the backward path reconstruction: a path, the `bug!` panic on an
unvisited region, or exhaustion of the embedding's fuel. -/
inductive ReconResult where
  | ok (path : List OutlivesConstraint)
  | bug
  | fuelOut
deriving DecidableEq

/-- The reconstruction loop of `find_constraint_paths_between_regions`: walk
`Trace` backlinks from the found region, pushing each edge, and reverse the
accumulated list on reaching the start region. -/
def reconstructPath (ctx : Nat → Trace) : Nat → Nat → List OutlivesConstraint → ReconResult
  | 0, _, _ => ReconResult.fuelOut
  | fuel + 1, p, result =>
    match ctx p with
    | Trace.NotVisited => ReconResult.bug
    | Trace.FromOutlivesConstraint c => reconstructPath ctx fuel c.sup (result ++ [c])
    | Trace.StartRegion => ReconResult.ok result.reverse

/-- The enqueue pass over one region's outgoing constraints: mark every
not-yet-visited `sub` endpoint with the edge that reached it and push it on
the back of the deque. -/
def processEdges : List OutlivesConstraint → (Nat → Trace) → List Nat →
    (Nat → Trace) × List Nat
  | [], ctx, queue => (ctx, queue)
  | c :: rest, ctx, queue =>
    if ctx c.sub = Trace.NotVisited then
      processEdges rest
        (fun x => if x = c.sub then Trace.FromOutlivesConstraint c else ctx x)
        (queue ++ [c.sub])
    else
      processEdges rest ctx queue

/-- Result of the path search: a path plus target (`Some`), queue exhaustion
(`None`), the `bug!` panic during reconstruction, or fuel exhaustion of the
embedding. -/
inductive BfsResult where
  | found (path : List OutlivesConstraint) (target : Nat)
  | exhausted
  | panicked
  | fuelOut
deriving DecidableEq

/-- The breadth-first search loop: pop a region from the deque; if it passes
the target test, reconstruct and return the path that led to it; otherwise
enqueue its unvisited successors. -/
def bfsLoop (g : ConstraintGraph) (target_test : Nat → Bool) :
    Nat → List Nat → (Nat → Trace) → BfsResult
  | _, [], _ => BfsResult.exhausted
  | 0, _ :: _, _ => BfsResult.fuelOut
  | fuel + 1, r :: queue, ctx =>
    if target_test r then
      match reconstructPath ctx (g.numRegions + 1) r [] with
      | ReconResult.ok result => BfsResult.found result r
      | ReconResult.bug => BfsResult.panicked
      | ReconResult.fuelOut => BfsResult.fuelOut
    else
      let step := processEdges (outgoingEdges g r) ctx queue
      bfsLoop g target_test fuel step.2 step.1

/-- The search entry point with an explicit fuel budget: the context starts
all-`NotVisited` except the start region, and the deque starts holding only
`from_region`. -/
def findPathsWithFuel (g : ConstraintGraph) (fuel : Nat) (from_region : Nat)
    (target_test : Nat → Bool) : BfsResult :=
  bfsLoop g target_test fuel [from_region]
    (fun x => if x = from_region then Trace.StartRegion else Trace.NotVisited)

/-- The function `find_constraint_paths_between_regions`: one more unit of fuel than there
are regions always suffices (each region is enqueued at most once). -/
def find_constraint_paths_between_regions (g : ConstraintGraph)
    (from_region : Nat) (target_test : Nat → Bool) : BfsResult :=
  findPathsWithFuel g (g.numRegions + 1) from_region target_test

/-- Proposition that `p` is a walk of constraint edges from `a` to `b` in the graph exposed by
`outgoingEdges` (the edge set the BFS explores, implicit static edge
included). -/
def IsPath (g : ConstraintGraph) : Nat → List OutlivesConstraint → Nat → Prop
  | a, [], b => a = b
  | a, c :: p, b => c ∈ outgoingEdges g a ∧ IsPath g c.sub p b

def decIsPath (g : ConstraintGraph) :
    (a : Nat) → (p : List OutlivesConstraint) → (b : Nat) → Decidable (IsPath g a p b)
  | a, [], b => inferInstanceAs (Decidable (a = b))
  | a, c :: p, b =>
    @instDecidableAnd _ _ (inferInstance) (decIsPath g c.sub p b)

instance (g : ConstraintGraph) (a : Nat) (p : List OutlivesConstraint) (b : Nat) :
    Decidable (IsPath g a p b) := decIsPath g a p b

/-- Placeholder constraint used for (always in-range) list indexing in the
embedding of the backward scan. -/
def dummyConstraint : OutlivesConstraint :=
  { sup := 0, sub := 0, category := ConstraintCategory.Internal, locations := 0 }

/-- The predicate of the primary backward scan of `best_blame_constraint`:
position `i` qualifies when its category is none of the four bookkeeping
categories and the `sup` endpoint's SCC differs from the target's SCC. -/
def blameQualifies (g : ConstraintGraph) (target_scc : Nat)
    (path : List OutlivesConstraint)
    (categorized_path : List (ConstraintCategory × Nat)) (i : Nat) : Bool :=
  let constraint := path.getD i dummyConstraint
  match (categorized_path.getD i (ConstraintCategory.Internal, 0)).1 with
  | ConstraintCategory.OpaqueType => false
  | ConstraintCategory.Boring => false
  | ConstraintCategory.BoringNoLocation => false
  | ConstraintCategory.Internal => false
  | _ => g.scc constraint.sup != target_scc

/-- Stable insertion into a category-sorted list, placing the new entry before
entries of equal category (the fallback `sort_by` of the source is stable). -/
def insertByCat (x : ConstraintCategory × Nat) :
    List (ConstraintCategory × Nat) → List (ConstraintCategory × Nat)
  | [] => [x]
  | y :: ys => if catOrd x.1 ≤ catOrd y.1 then x :: y :: ys else y :: insertByCat x ys

/-- Stable sort of the categorized path by category, for the fallback
selection. -/
def sortByCat : List (ConstraintCategory × Nat) → List (ConstraintCategory × Nat)
  | [] => []
  | x :: xs => insertByCat x (sortByCat xs)

/-- The function `best_blame_constraint`: run the path search, classify the path, scan it
backward for the last qualifying edge, and otherwise fall back to the first
entry of the category-sorted path.  `none` models the panics (`.unwrap()` on a
missing path or on an empty categorized path). -/
def best_blame_constraint (g : ConstraintGraph) (from_region : Nat)
    (target_test : Nat → Bool) : Option (ConstraintCategory × Nat × Nat) :=
  match find_constraint_paths_between_regions g from_region target_test with
  | BfsResult.found path target_region =>
    let categorized_path := path.map fun c => (c.category, c.locations)
    let target_scc := g.scc target_region
    match (List.range path.length).reverse.find?
        (blameQualifies g target_scc path categorized_path) with
    | some i =>
      some ((categorized_path.getD i (ConstraintCategory.Internal, 0)).1,
            (categorized_path.getD i (ConstraintCategory.Internal, 0)).2,
            target_region)
    | none =>
      match sortByCat categorized_path with
      | [] => none
      | e :: _ => some (e.1, e.2, target_region)
  | _ => none

instance (g : ConstraintGraph) : Decidable g.WF := by
  unfold ConstraintGraph.WF; infer_instance

/-- The path the `Trace` backlinks of `ctx` spell out for region `r`. -/
inductive ReconRel (ctx : Nat → Trace) : Nat → List OutlivesConstraint → Prop where
  | start (r : Nat) (h : ctx r = Trace.StartRegion) : ReconRel ctx r []
  | step (r : Nat) (c : OutlivesConstraint) (p : List OutlivesConstraint)
      (h : ctx r = Trace.FromOutlivesConstraint c) (hsub : c.sub = r)
      (hp : ReconRel ctx c.sup p) : ReconRel ctx r (p ++ [c])

/-- Number of regions the context has not visited yet (the decreasing measure
of the BFS). -/
def unvisitedCount (n : Nat) (ctx : Nat → Trace) : Nat :=
  (List.range n).countP (fun x => decide (ctx x = Trace.NotVisited))

/-- The loop invariant of the breadth-first search.  `d` is the BFS depth of
each visited region; a region is *processed* when it is visited and no longer
on the queue. -/
structure BfsInv (g : ConstraintGraph) (tt : Nat → Bool) (fr : Nat)
    (queue : List Nat) (ctx : Nat → Trace) (d : Nat → Nat) : Prop where
  start_ctx : ctx fr = Trace.StartRegion
  start_iff : ∀ r, ctx r = Trace.StartRegion → r = fr
  d_start : d fr = 0
  visited_lt : ∀ r, ctx r ≠ Trace.NotVisited → r < g.numRegions
  queue_visited : ∀ r ∈ queue, ctx r ≠ Trace.NotVisited
  queue_nodup : queue.Nodup
  recon : ∀ r, ctx r ≠ Trace.NotVisited →
    ∃ p, ReconRel ctx r p ∧ IsPath g fr p r ∧ p.length = d r
  d_bound : ∀ r, ctx r ≠ Trace.NotVisited →
    d r + unvisitedCount g.numRegions ctx ≤ g.numRegions
  levels : ∃ k, (∃ q1 q2, queue = q1 ++ q2 ∧ (∀ x ∈ q1, d x = k) ∧
      (∀ x ∈ q2, d x = k + 1)) ∧
    (∀ a, ctx a ≠ Trace.NotVisited → a ∉ queue → d a ≤ k)
  processed_no_tt : ∀ a, ctx a ≠ Trace.NotVisited → a ∉ queue → tt a = false
  processed_closed : ∀ a, ctx a ≠ Trace.NotVisited → a ∉ queue →
    ∀ c ∈ outgoingEdges g a, ctx c.sub ≠ Trace.NotVisited ∧ d c.sub ≤ d a + 1

/-! ### Data model of the reporting half (external collaborators are
modelled from the spec as opaque functions bundled in `Env`). -/

/-- The shape of an error region handed back by `to_error_region`: either the
static region or some other externally nameable region. -/
inductive RegionKind where
  | ReStatic
  | ReOther (idx : Nat)
deriving DecidableEq

/-- A display name produced by the naming collaborator: user-written or
synthesized. -/
inductive RegionName where
  | Named (name : Nat)
  | Synthesized (idx : Nat)
deriving DecidableEq

/-- The text spliced after `+` in the suggested edit: a named lifetime or the
anonymous-lifetime placeholder. -/
inductive SuggestedName where
  | named (name : Nat)
  | underscore
deriving DecidableEq

/-- An instantiated predicate of the opaque return type's bound set. -/
inductive Predicate where
  | TypeOutlives (ty : Nat) (region : RegionKind)
  | OtherPredicate (idx : Nat)
deriving DecidableEq

/-- The type returned by `return_type_impl_trait`: an opaque (`impl Trait`)
type or anything else. -/
inductive TyKind where
  | OpaqueTy (did : Nat) (substs : Nat)
  | OtherTy (idx : Nat)
deriving DecidableEq

/-- Whether the enclosing item is a closure or a plain function
(`tcx.is_closure(mir_def_id)`). -/
inductive EscapesFrom where
  | closure
  | function
deriving DecidableEq

/-- The primary message of a buffered diagnostic — one constructor per message
the module can emit. -/
inductive DiagMessage where
  | borrowedDataEscapes (escapes_from : EscapesFrom)
  | unsatisfiedLifetimeConstraints
deriving DecidableEq

/-- A span label attached to a diagnostic, one constructor per `span_label`
call site of the module, carrying exactly the data interpolated there. -/
inductive DiagLabel where
  | declaredHereOutside (name : Nat) (escapes_from : EscapesFrom) (span : Nat)
  | referenceOnlyValidIn (name : Nat) (escapes_from : EscapesFrom) (span : Nat)
  | escapesBodyHere (name : Nat) (escapes_from : EscapesFrom) (span : Nat)
  | returnsDataWithLifetime (mir_def_name : EscapesFrom)
      (outlived_fr_name : RegionName) (fr_name : RegionName) (span : Nat)
  | requiresOutlives (category : ConstraintCategory) (fr_name : RegionName)
      (outlived_fr_name : RegionName) (span : Nat)
deriving DecidableEq

/-- A help note attached to a diagnostic. -/
inductive DiagHelp where
  | replaceWithStatic (fr_name : RegionName)
deriving DecidableEq

/-- A machine-applicable suggested edit: append `+ constraint` to the source
snippet at `span`. -/
inductive DiagSuggestion where
  | appendConstraint (span : Nat) (snippet : Nat) (constraint : SuggestedName)
deriving DecidableEq

/-- A buffered diagnostic: message, primary span, labels, helps and suggested
edits, in the order they were attached. -/
structure Diagnostic where
  message : DiagMessage
  primarySpan : Nat
  labels : List DiagLabel
  helps : List DiagHelp
  suggestions : List DiagSuggestion
deriving DecidableEq

/-- Model of `sess.struct_span_err`: a fresh diagnostic with the given primary span and
message. -/
def struct_span_err (span : Nat) (msg : DiagMessage) : Diagnostic :=
  { message := msg, primarySpan := span, labels := [], helps := [],
    suggestions := [] }

/-- Model of `diag.span_label(..)`. -/
def addLabel (d : Diagnostic) (l : DiagLabel) : Diagnostic :=
  { d with labels := d.labels ++ [l] }

/-- Model of `diag.help(..)`. -/
def addHelp (d : Diagnostic) (h : DiagHelp) : Diagnostic :=
  { d with helps := d.helps ++ [h] }

/-- Model of `diag.span_suggestion_with_applicability(..)`. -/
def addSuggestion (d : Diagnostic) (s : DiagSuggestion) : Diagnostic :=
  { d with suggestions := d.suggestions ++ [s] }

/-- Modelled from the spec: the external collaborators consumed by the
reporting half (region naming, locality and error-region queries, the
nice-region-error first-refusal path, and the type-level queries of the
suggestion generator), bundled as opaque functions. -/
structure Env where
  to_error_region : Nat → Option RegionKind
  try_report_from_nll : Nat → RegionKind → RegionKind → Bool
  is_local_free_region : Nat → Bool
  is_closure : Bool
  get_var_name_and_span : Nat → Option (Option Nat × Nat)
  give_region_a_name : Nat → RegionName
  is_suitable_region : RegionKind → Option Nat
  return_type_impl_trait : Nat → Option TyKind
  instantiated_predicates : Nat → Nat → List Predicate
  def_span : Nat → Nat
  span_to_snippet : Nat → Option Nat

/-- The search-with-early-exit over the instantiated bound set: `true` exactly
when some predicate is a `TypeOutlives` whose bound region is the static
region (the `for … if let … break` loop of the source). -/
def containsStaticOutlives : List Predicate → Bool
  | [] => false
  | Predicate.TypeOutlives _ RegionKind.ReStatic :: _ => true
  | _ :: rest => containsStaticOutlives rest

/-- The `suggestable_fr_name` match of the source: a named lifetime is spliced
verbatim, a synthesized one becomes the anonymous-lifetime token. -/
def suggestableName : RegionName → SuggestedName
  | RegionName.Named name => SuggestedName.named name
  | RegionName.Synthesized _ => SuggestedName.underscore

/-- The function `add_static_impl_trait_suggestion`: when `fr` maps to an error region,
`outlived_fr` maps to the static region, and the suitable enclosing item's
return type is an opaque type, attach either a replace-with-static help (if
the bound set already outlives static) or, if the snippet is retrievable, the
machine-applicable `+ lifetime` edit. -/
def add_static_impl_trait_suggestion (env : Env) (diag : Diagnostic) (fr : Nat)
    (fr_name : RegionName) (outlived_fr : Nat) : Diagnostic :=
  match env.to_error_region fr, env.to_error_region outlived_fr with
  | some f, some RegionKind.ReStatic =>
    match ((env.is_suitable_region f).map env.return_type_impl_trait).getD none with
    | some (TyKind.OpaqueTy did substs) =>
      let has_static_predicate :=
        containsStaticOutlives (env.instantiated_predicates did substs)
      if has_static_predicate then
        addHelp diag (DiagHelp.replaceWithStatic fr_name)
      else
        let span := env.def_span did
        match env.span_to_snippet span with
        | some snippet =>
          addSuggestion diag
            (DiagSuggestion.appendConstraint span snippet (suggestableName fr_name))
        | none => diag
    | _ => diag
  | _, _ => diag

/-- The function `report_general_error`: build the "unsatisfied lifetime constraints"
diagnostic, label it according to `(category, outlived_fr_is_local, _)`, run
the suggestion generator, and buffer it. -/
def report_general_error (env : Env) (fr : Nat) (fr_is_local : Bool)
    (outlived_fr : Nat) (outlived_fr_is_local : Bool)
    (category : ConstraintCategory) (span : Nat)
    (errors_buffer : List Diagnostic) : List Diagnostic :=
  let diag := struct_span_err span DiagMessage.unsatisfiedLifetimeConstraints
  let fr_name := env.give_region_a_name fr
  let outlived_fr_name := env.give_region_a_name outlived_fr
  let mir_def_name := if env.is_closure then EscapesFrom.closure
    else EscapesFrom.function
  let diag :=
    match category, outlived_fr_is_local, fr_is_local with
    | ConstraintCategory.Return, true, _ =>
      addLabel diag
        (DiagLabel.returnsDataWithLifetime mir_def_name outlived_fr_name fr_name span)
    | _, _, _ =>
      addLabel diag
        (DiagLabel.requiresOutlives category fr_name outlived_fr_name span)
  let diag := add_static_impl_trait_suggestion env diag fr fr_name outlived_fr
  errors_buffer ++ [diag]

/-- The function `report_escaping_data_error`: look up variable names and spans for both
regions; revert to the general error when both lookups fail or when an
assignment escape occurs in a plain function; otherwise buffer the
"borrowed data escapes" diagnostic with the labels whose names resolved. -/
def report_escaping_data_error (env : Env) (fr outlived_fr : Nat)
    (category : ConstraintCategory) (span : Nat)
    (errors_buffer : List Diagnostic) : List Diagnostic :=
  let fr_name_and_span := env.get_var_name_and_span fr
  let outlived_fr_name_and_span := env.get_var_name_and_span outlived_fr
  let escapes_from := if env.is_closure then EscapesFrom.closure
    else EscapesFrom.function
  if (fr_name_and_span = none ∧ outlived_fr_name_and_span = none)
      ∨ (category = ConstraintCategory.Assignment ∧
          escapes_from = EscapesFrom.function) then
    report_general_error env fr true outlived_fr false category span errors_buffer
  else
    let diag := struct_span_err span (DiagMessage.borrowedDataEscapes escapes_from)
    let diag :=
      match outlived_fr_name_and_span with
      | some (some name, outlived_fr_span) =>
        addLabel diag (DiagLabel.declaredHereOutside name escapes_from outlived_fr_span)
      | _ => diag
    let diag :=
      match fr_name_and_span with
      | some (some name, fr_span) =>
        addLabel
          (addLabel diag (DiagLabel.referenceOnlyValidIn name escapes_from fr_span))
          (DiagLabel.escapesBodyHere name escapes_from span)
      | _ => diag
    errors_buffer ++ [diag]

/-- The function `report_error`: blame a constraint, give the nice-region-error
collaborator first refusal, then dispatch on `(category, fr_is_local,
outlived_fr_is_local)` between the escaping-data and general shapes.  The
result is the new buffer contents; `none` models the panic inside
`best_blame_constraint`. -/
def report_error (g : ConstraintGraph) (env : Env) (fr outlived_fr : Nat)
    (errors_buffer : List Diagnostic) : Option (List Diagnostic) :=
  match best_blame_constraint g fr (fun r => r == outlived_fr) with
  | none => none
  | some (category, span, _target) =>
    let nice_handled :=
      match env.to_error_region fr, env.to_error_region outlived_fr with
      | some f, some o => env.try_report_from_nll span o f
      | _, _ => false
    if nice_handled then some errors_buffer
    else
      let fr_is_local := env.is_local_free_region fr
      let outlived_fr_is_local := env.is_local_free_region outlived_fr
      match category, fr_is_local, outlived_fr_is_local with
      | ConstraintCategory.Assignment, true, false =>
        some (report_escaping_data_error env fr outlived_fr category span
          errors_buffer)
      | ConstraintCategory.CallArgument, true, false =>
        some (report_escaping_data_error env fr outlived_fr category span
          errors_buffer)
      | _, _, _ =>
        some (report_general_error env fr fr_is_local outlived_fr
          outlived_fr_is_local category span errors_buffer)

/-! ### Concrete instances used to exercise the theorems -/

/-- Scenario A of the spec: the chain `r0 -> r1 -> r2 -> r3`, every edge an
assignment, `r3` in its own SCC, static region `r0`. -/
def gA : ConstraintGraph :=
  { numRegions := 4
  , constraints :=
      [ { sup := 0, sub := 1, category := ConstraintCategory.Assignment, locations := 1 }
      , { sup := 1, sub := 2, category := ConstraintCategory.Assignment, locations := 2 }
      , { sup := 2, sub := 3, category := ConstraintCategory.Assignment, locations := 3 } ]
  , fr_static := 0
  , scc := fun r => if r = 3 then 3 else 0 }

/-- Scenario C of the spec: a two-edge chain entirely inside one SCC, so the
primary scan fails and the fallback sort decides. -/
def gC : ConstraintGraph :=
  { numRegions := 3
  , constraints :=
      [ { sup := 0, sub := 1, category := ConstraintCategory.Return, locations := 10 }
      , { sup := 1, sub := 2, category := ConstraintCategory.Assignment, locations := 20 } ]
  , fr_static := 0
  , scc := fun _ => 0 }

/-- A collaborator environment in which every optional query declines: the
nice-region path never fires, no names resolve, region `0` is the only local
free region, and the enclosing item is a plain function. -/
def envBase : Env :=
  { to_error_region := fun _ => none
  , try_report_from_nll := fun _ _ _ => false
  , is_local_free_region := fun r => r == 0
  , is_closure := false
  , get_var_name_and_span := fun _ => none
  , give_region_a_name := fun r => RegionName.Synthesized r
  , is_suitable_region := fun _ => none
  , return_type_impl_trait := fun _ => none
  , instantiated_predicates := fun _ _ => []
  , def_span := fun _ => 0
  , span_to_snippet := fun _ => none }

/-- A collaborator environment in which the suggestion generator fires:
region `3` maps to the static region, the suitable item's return type is
opaque, and its bound set already outlives static. -/
def env9 : Env :=
  { envBase with
    to_error_region := fun r =>
      if r = 3 then some RegionKind.ReStatic else some (RegionKind.ReOther r)
  , is_suitable_region := fun _ => some 0
  , return_type_impl_trait := fun _ => some (TyKind.OpaqueTy 0 0)
  , instantiated_predicates := fun _ _ =>
      [Predicate.TypeOutlives 0 RegionKind.ReStatic] }

/-! ### Basic facts about the edge enumeration and paths -/

theorem outgoingEdges_sup {g : ConstraintGraph} {r : Nat} {c : OutlivesConstraint}
    (h : c ∈ outgoingEdges g r) : c.sup = r := by
  unfold outgoingEdges at h
  rcases List.mem_append.1 h with h | h
  · exact of_decide_eq_true (List.mem_filter.1 h).2
  · simp only [List.mem_singleton] at h
    subst h; rfl

theorem outgoingEdges_sub_lt {g : ConstraintGraph} (hwf : g.WF) {r : Nat}
    {c : OutlivesConstraint} (h : c ∈ outgoingEdges g r) : c.sub < g.numRegions := by
  unfold outgoingEdges at h
  rcases List.mem_append.1 h with h | h
  · exact (hwf.2 c (List.mem_filter.1 h).1).2
  · simp only [List.mem_singleton] at h
    subst h; exact hwf.1

theorem isPath_append {g : ConstraintGraph} {a b : Nat}
    {p q : List OutlivesConstraint} :
    IsPath g a (p ++ q) b ↔ ∃ m, IsPath g a p m ∧ IsPath g m q b := by
  induction p generalizing a with
  | nil =>
    simp only [List.nil_append]
    constructor
    · intro h; exact ⟨a, rfl, h⟩
    · rintro ⟨m, hm, hq⟩
      cases hm; exact hq
  | cons c p ih =>
    simp only [List.cons_append, IsPath]
    constructor
    · rintro ⟨hc, hrest⟩
      obtain ⟨m, hm, hq⟩ := ih.1 hrest
      exact ⟨m, ⟨hc, hm⟩, hq⟩
    · rintro ⟨m, ⟨hc, hm⟩, hq⟩
      exact ⟨hc, ih.2 ⟨m, hm, hq⟩⟩

theorem isPath_snoc {g : ConstraintGraph} {a b : Nat}
    {p : List OutlivesConstraint} {c : OutlivesConstraint} :
    IsPath g a (p ++ [c]) b ↔ ∃ m, IsPath g a p m ∧ c ∈ outgoingEdges g m ∧ c.sub = b := by
  rw [isPath_append]
  constructor
  · rintro ⟨m, hm, hc, hb⟩
    exact ⟨m, hm, hc, hb⟩
  · rintro ⟨m, hm, hc, hb⟩
    exact ⟨m, hm, hc, hb⟩

/-! ### The trace relation recorded by the BFS context -/

theorem reconRel_mono {ctx ctx' : Nat → Trace}
    (hmono : ∀ x, ctx x ≠ Trace.NotVisited → ctx' x = ctx x) {r : Nat}
    {p : List OutlivesConstraint} (h : ReconRel ctx r p) : ReconRel ctx' r p := by
  induction h with
  | start r h =>
    exact ReconRel.start r ((hmono r (by rw [h]; exact fun h' => Trace.noConfusion h')).trans h)
  | step r c p h hsub hp ih =>
    exact ReconRel.step r c p
      ((hmono r (by rw [h]; exact fun h' => Trace.noConfusion h')).trans h) hsub ih

theorem reconstructPath_of_reconRel {ctx : Nat → Trace} {r : Nat}
    {p : List OutlivesConstraint} (h : ReconRel ctx r p) :
    ∀ fuel acc, p.length < fuel →
      reconstructPath ctx fuel r acc = ReconResult.ok (p ++ acc.reverse) := by
  induction h with
  | start r h =>
    intro fuel acc hfuel
    match fuel, hfuel with
    | fuel + 1, _ =>
      simp [reconstructPath, h]
  | step r c p h hsub hp ih =>
    intro fuel acc hfuel
    match fuel, hfuel with
    | fuel + 1, hfuel =>
      have hlen : p.length < fuel := by
        simp only [List.length_append, List.length_singleton] at hfuel
        omega
      simp only [reconstructPath, h]
      rw [ih fuel (acc ++ [c]) hlen]
      simp

/-! ### Counting unvisited regions -/

theorem countP_update_mem {l : List Nat} (hnd : l.Nodup) {a : Nat} (hmem : a ∈ l)
    {p q : Nat → Bool} (hpa : p a = true) (hqa : q a = false)
    (hagree : ∀ x ∈ l, x ≠ a → p x = q x) : l.countP p = l.countP q + 1 := by
  induction l with
  | nil => cases hmem
  | cons c rest ih =>
    rcases List.mem_cons.1 hmem with hca | hmem'
    · have hpc : p c = true := hca ▸ hpa
      have hqc : q c = false := hca ▸ hqa
      have hrest : rest.countP p = rest.countP q := by
        apply List.countP_congr
        intro x hx
        have hxa : x ≠ a := by
          rintro rfl
          exact (List.nodup_cons.1 hnd).1 (hca ▸ hx)
        rw [hagree x (List.mem_cons_of_mem _ hx) hxa]
      simp [List.countP_cons, hpc, hqc, hrest]
    · have hca : c ≠ a := by
        rintro rfl
        exact (List.nodup_cons.1 hnd).1 hmem'
      have hhead : p c = q c := hagree c (List.mem_cons_self _ _) hca
      have := ih (List.nodup_cons.1 hnd).2 hmem'
        (fun x hx hxa => hagree x (List.mem_cons_of_mem _ hx) hxa)
      simp [List.countP_cons, hhead, this]
      omega

theorem unvisitedCount_le (n : Nat) (ctx : Nat → Trace) :
    unvisitedCount n ctx ≤ n := by
  unfold unvisitedCount
  calc (List.range n).countP _ ≤ (List.range n).length := List.countP_le_length _
  _ = n := List.length_range n

theorem unvisitedCount_update {n a : Nat} {ctx : Nat → Trace} {t : Trace}
    (ha : a < n) (hNV : ctx a = Trace.NotVisited) (ht : t ≠ Trace.NotVisited) :
    unvisitedCount n ctx =
      unvisitedCount n (fun x => if x = a then t else ctx x) + 1 := by
  unfold unvisitedCount
  apply countP_update_mem (List.nodup_range n) (List.mem_range.2 ha)
  · exact decide_eq_true hNV
  · simp [ht]
  · intro x _ hxa
    simp [hxa]

/-! ### The enqueue pass -/

theorem processEdges_spec (n : Nat) (edges : List OutlivesConstraint) :
    ∀ (ctx : Nat → Trace) (queue : List Nat), (∀ c ∈ edges, c.sub < n) →
      ∃ ctx' new,
        processEdges edges ctx queue = (ctx', queue ++ new) ∧
        (∀ x, ctx x ≠ Trace.NotVisited → ctx' x = ctx x) ∧
        (∀ x, ctx' x ≠ Trace.NotVisited → ctx x ≠ Trace.NotVisited ∨ x ∈ new) ∧
        (∀ s ∈ new, ctx s = Trace.NotVisited ∧ ctx' s ≠ Trace.NotVisited) ∧
        (∀ s ∈ new, ∃ c ∈ edges, ctx' s = Trace.FromOutlivesConstraint c ∧ c.sub = s) ∧
        new.Nodup ∧
        (∀ c ∈ edges, ctx' c.sub ≠ Trace.NotVisited) ∧
        unvisitedCount n ctx = unvisitedCount n ctx' + new.length := by
  induction edges with
  | nil =>
    intro ctx queue _
    refine ⟨ctx, [], by simp [processEdges], fun x hx => rfl, ?_, ?_, ?_, ?_, ?_, ?_⟩
    · intro x hx; exact Or.inl hx
    · intro s hs; cases hs
    · intro s hs; cases hs
    · exact List.nodup_nil
    · intro c hc; cases hc
    · simp
  | cons c rest ih =>
    intro ctx queue hsub
    by_cases h : ctx c.sub = Trace.NotVisited
    · -- the sub endpoint is fresh: mark it and enqueue it
      set ctx1 : Nat → Trace :=
        fun x => if x = c.sub then Trace.FromOutlivesConstraint c else ctx x with hctx1
      have hctx1sub : ctx1 c.sub = Trace.FromOutlivesConstraint c := by simp [hctx1]
      have hctx1other : ∀ x, x ≠ c.sub → ctx1 x = ctx x := by
        intro x hx; simp [hctx1, hx]
      obtain ⟨ctx', new', heq, hmono, horig, hfresh, hedge, hnd, hcov, huc⟩ :=
        ih ctx1 (queue ++ [c.sub]) (fun c' hc' => hsub c' (List.mem_cons_of_mem _ hc'))
      have hmono1 : ∀ x, ctx x ≠ Trace.NotVisited → ctx' x = ctx x := by
        intro x hx
        have hxc : x ≠ c.sub := by rintro rfl; exact hx h
        rw [hmono x (by rw [hctx1other x hxc]; exact hx), hctx1other x hxc]
      have hsubvis : ctx' c.sub = Trace.FromOutlivesConstraint c := by
        rw [hmono c.sub (by rw [hctx1sub]; exact fun hh => Trace.noConfusion hh), hctx1sub]
      refine ⟨ctx', c.sub :: new', ?_, hmono1, ?_, ?_, ?_, ?_, ?_, ?_⟩
      · simp only [processEdges, if_pos h]
        rw [← hctx1, heq, List.append_assoc]
        rfl
      · intro x hx
        rcases horig x hx with h1 | h2
        · by_cases e : x = c.sub
          · exact Or.inr (e ▸ List.mem_cons_self _ _)
          · exact Or.inl (by rw [← hctx1other x e]; exact h1)
        · exact Or.inr (List.mem_cons_of_mem _ h2)
      · intro s hs
        rcases List.mem_cons.1 hs with rfl | hs'
        · exact ⟨h, by rw [hsubvis]; exact fun hh => Trace.noConfusion hh⟩
        · obtain ⟨h1, h2⟩ := hfresh s hs'
          have hsc : s ≠ c.sub := by
            rintro rfl; rw [hctx1sub] at h1; exact Trace.noConfusion h1
          exact ⟨by rw [← hctx1other s hsc]; exact h1, h2⟩
      · intro s hs
        rcases List.mem_cons.1 hs with rfl | hs'
        · exact ⟨c, List.mem_cons_self _ _, hsubvis, rfl⟩
        · obtain ⟨c', hc', hfc⟩ := hedge s hs'
          exact ⟨c', List.mem_cons_of_mem _ hc', hfc⟩
      · refine List.nodup_cons.2 ⟨?_, hnd⟩
        intro hmem
        have := (hfresh c.sub hmem).1
        rw [hctx1sub] at this
        exact Trace.noConfusion this
      · intro c' hc'
        rcases List.mem_cons.1 hc' with rfl | hc''
        · rw [hsubvis]; exact fun hh => Trace.noConfusion hh
        · exact hcov c' hc''
      · have hdec : unvisitedCount n ctx = unvisitedCount n ctx1 + 1 := by
          rw [hctx1]
          exact unvisitedCount_update (hsub c (List.mem_cons_self _ _)) h
            (fun hh => Trace.noConfusion hh)
        rw [hdec, huc, List.length_cons]
        omega
    · -- already visited: skip
      obtain ⟨ctx', new', heq, hmono, horig, hfresh, hedge, hnd, hcov, huc⟩ :=
        ih ctx queue (fun c' hc' => hsub c' (List.mem_cons_of_mem _ hc'))
      refine ⟨ctx', new', ?_, hmono, horig, hfresh, ?_, hnd, ?_, huc⟩
      · simp only [processEdges, if_neg h]
        exact heq
      · intro s hs
        obtain ⟨c', hc', hfc⟩ := hedge s hs
        exact ⟨c', List.mem_cons_of_mem _ hc', hfc⟩
      · intro c' hc'
        rcases List.mem_cons.1 hc' with rfl | hc''
        · rw [hmono c'.sub h]; exact h
        · exact hcov c' hc''

/-! ### The BFS invariant: establishment and consequences -/

theorem bfsInv_init (g : ConstraintGraph) (tt : Nat → Bool) (fr : Nat)
    (hfr : fr < g.numRegions) :
    BfsInv g tt fr [fr]
      (fun x => if x = fr then Trace.StartRegion else Trace.NotVisited)
      (fun _ => 0) := by
  constructor
  · simp
  · intro r h
    by_cases hr : r = fr
    · exact hr
    · simp [hr] at h
  · rfl
  · intro r h
    by_cases hr : r = fr
    · exact hr ▸ hfr
    · simp [hr] at h
  · intro r hr
    rcases List.mem_singleton.1 hr with rfl
    simp
  · exact List.nodup_singleton _
  · intro r h
    by_cases hr : r = fr
    · subst hr
      exact ⟨[], ReconRel.start r (by simp), rfl, rfl⟩
    · simp [hr] at h
  · intro r h
    simpa using unvisitedCount_le g.numRegions _
  · refine ⟨0, ⟨[fr], [], by simp, by simp, by simp⟩, ?_⟩
    intro a ha hnq
    by_cases hr : a = fr
    · exact absurd (hr ▸ List.mem_singleton_self fr) hnq
    · simp [hr] at ha
  · intro a ha hnq
    by_cases hr : a = fr
    · exact absurd (hr ▸ List.mem_singleton_self fr) hnq
    · simp [hr] at ha
  · intro a ha hnq
    by_cases hr : a = fr
    · exact absurd (hr ▸ List.mem_singleton_self fr) hnq
    · simp [hr] at ha

theorem bfs_reach {g : ConstraintGraph} {tt : Nat → Bool} {fr : Nat}
    {queue : List Nat} {ctx : Nat → Trace} {d : Nat → Nat}
    (inv : BfsInv g tt fr queue ctx d) (q : List OutlivesConstraint) :
    ∀ x, IsPath g fr q x →
      (ctx x ≠ Trace.NotVisited ∧ x ∉ queue ∧ d x ≤ q.length) ∨
      (∃ y ∈ queue, d y ≤ q.length) := by
  induction q using List.reverseRecOn with
  | nil =>
    intro x hpath
    have hx : fr = x := hpath
    subst hx
    by_cases hq : fr ∈ queue
    · exact Or.inr ⟨fr, hq, by rw [inv.d_start]; exact Nat.zero_le _⟩
    · exact Or.inl ⟨by rw [inv.start_ctx]; exact fun hh => Trace.noConfusion hh,
        hq, by rw [inv.d_start]; exact Nat.zero_le _⟩
  | append_singleton q c ih =>
    intro x hpath
    obtain ⟨m, hm, hcm, hcx⟩ := isPath_snoc.1 hpath
    rcases ih m hm with ⟨hvis, hnq, hd⟩ | ⟨y, hy, hd⟩
    · obtain ⟨hxvis, hxd⟩ := inv.processed_closed m hvis hnq c hcm
      rw [hcx] at hxvis hxd
      by_cases hxq : x ∈ queue
      · refine Or.inr ⟨x, hxq, ?_⟩
        simp only [List.length_append, List.length_singleton]
        omega
      · refine Or.inl ⟨hxvis, hxq, ?_⟩
        simp only [List.length_append, List.length_singleton]
        omega
    · refine Or.inr ⟨y, hy, ?_⟩
      simp only [List.length_append, List.length_singleton]
      omega

theorem bfs_head_min {g : ConstraintGraph} {tt : Nat → Bool} {fr r : Nat}
    {Q' : List Nat} {ctx : Nat → Trace} {d : Nat → Nat}
    (inv : BfsInv g tt fr (r :: Q') ctx d) : ∀ y ∈ r :: Q', d r ≤ d y := by
  obtain ⟨k, ⟨q1, q2, hq, h1, h2⟩, _⟩ := inv.levels
  cases q1 with
  | nil =>
    simp only [List.nil_append] at hq
    intro y hy
    have hr : d r = k + 1 := h2 r (hq ▸ List.mem_cons_self _ _)
    have hyk : d y = k + 1 := h2 y (hq ▸ hy)
    omega
  | cons a q1' =>
    rw [List.cons_append] at hq
    injection hq with hra hrest
    subst hra
    intro y hy
    rcases List.mem_cons.1 hy with rfl | hy'
    · exact Nat.le_refl _
    · rw [hrest] at hy'
      have hr : d r = k := h1 r (List.mem_cons_self _ _)
      rcases List.mem_append.1 hy' with hy1 | hy2
      · rw [hr, h1 y (List.mem_cons_of_mem _ hy1)]
      · rw [hr, h2 y hy2]
        omega

theorem bfsInv_step {g : ConstraintGraph} {tt : Nat → Bool} {fr r : Nat}
    {Q' : List Nat} {ctx : Nat → Trace} {d : Nat → Nat}
    (hwf : g.WF) (inv : BfsInv g tt fr (r :: Q') ctx d) (htt : tt r = false) :
    ∃ ctx' queue',
      processEdges (outgoingEdges g r) ctx Q' = (ctx', queue') ∧
      BfsInv g tt fr queue' ctx'
        (fun x => if ctx x = Trace.NotVisited then d r + 1 else d x) ∧
      queue'.length + unvisitedCount g.numRegions ctx' <
        (r :: Q').length + unvisitedCount g.numRegions ctx := by
  have hrvis : ctx r ≠ Trace.NotVisited :=
    inv.queue_visited r (List.mem_cons_self _ _)
  have hrQ : r ∉ Q' := (List.nodup_cons.1 inv.queue_nodup).1
  obtain ⟨ctx', new, heq, hmono, horig, hfresh, hedge, hndnew, hcov, huc⟩ :=
    processEdges_spec g.numRegions (outgoingEdges g r) ctx Q'
      (fun c hc => outgoingEdges_sub_lt hwf hc)
  have hrnew : r ∉ new := fun hr => hrvis (hfresh r hr).1
  have hnewlt : ∀ s ∈ new, s < g.numRegions := by
    intro s hs
    obtain ⟨c, hc, _, hcs⟩ := hedge s hs
    exact hcs ▸ outgoingEdges_sub_lt hwf hc
  have hQbound : (∀ y ∈ r :: Q', d y ≤ d r + 1) ∧
      (∀ a, ctx a ≠ Trace.NotVisited → a ∉ r :: Q' → d a ≤ d r) := by
    obtain ⟨k, ⟨q1, q2, hq, h1, h2⟩, hproc⟩ := inv.levels
    cases q1 with
    | nil =>
      simp only [List.nil_append] at hq
      have hr : d r = k + 1 := h2 r (hq ▸ List.mem_cons_self _ _)
      constructor
      · intro y hy
        rw [h2 y (hq ▸ hy), hr]
        omega
      · intro a ha hnq
        rw [hr]
        exact (hproc a ha hnq).trans (Nat.le_succ _)
    | cons a q1' =>
      rw [List.cons_append] at hq
      injection hq with hra hrest
      subst hra
      have hr : d r = k := h1 r (List.mem_cons_self _ _)
      constructor
      · intro y hy
        rcases List.mem_cons.1 hy with rfl | hy'
        · omega
        · rw [hrest] at hy'
          rcases List.mem_append.1 hy' with hy1 | hy2
          · rw [h1 y (List.mem_cons_of_mem _ hy1), hr]
            omega
          · rw [h2 y hy2, hr]
      · intro b hb hnq
        rw [hr]
        exact hproc b hb hnq
  refine ⟨ctx', Q' ++ new, heq, ?_, ?_⟩
  · constructor
    -- start_ctx
    · rw [hmono fr (by rw [inv.start_ctx]; exact fun hh => Trace.noConfusion hh)]
      exact inv.start_ctx
    -- start_iff
    · intro x hx
      by_cases hold : ctx x = Trace.NotVisited
      · exfalso
        rcases horig x (by rw [hx]; exact fun hh => Trace.noConfusion hh) with h1 | h2
        · exact h1 hold
        · obtain ⟨c, _, hc, _⟩ := hedge x h2
          rw [hx] at hc
          exact Trace.noConfusion hc
      · exact inv.start_iff x (by rw [← hmono x hold]; exact hx)
    -- d_start
    · dsimp only
      rw [if_neg (by rw [inv.start_ctx]; exact fun hh => Trace.noConfusion hh)]
      exact inv.d_start
    -- visited_lt
    · intro x hx
      rcases horig x hx with h1 | h2
      · exact inv.visited_lt x h1
      · exact hnewlt x h2
    -- queue_visited
    · intro x hx
      rcases List.mem_append.1 hx with h1 | h2
      · have hold : ctx x ≠ Trace.NotVisited :=
          inv.queue_visited x (List.mem_cons_of_mem _ h1)
        rw [hmono x hold]; exact hold
      · exact (hfresh x h2).2
    -- queue_nodup
    · refine List.nodup_append.2 ⟨(List.nodup_cons.1 inv.queue_nodup).2, hndnew, ?_⟩
      intro x hx1 hx2
      exact inv.queue_visited x (List.mem_cons_of_mem _ hx1) (hfresh x hx2).1
    -- recon
    · intro x hx
      dsimp only
      rcases horig x hx with h1 | h2
      · obtain ⟨p, hrel, hpath, hlen⟩ := inv.recon x h1
        exact ⟨p, reconRel_mono hmono hrel, hpath, by rw [if_neg h1]; exact hlen⟩
      · obtain ⟨c, hc, hctxs, hcs⟩ := hedge x h2
        obtain ⟨pr, hrelr, hpathr, hlenr⟩ := inv.recon r hrvis
        have hcsup : c.sup = r := outgoingEdges_sup hc
        refine ⟨pr ++ [c], ?_, ?_, ?_⟩
        · exact ReconRel.step x c pr hctxs hcs
            (by rw [hcsup]; exact reconRel_mono hmono hrelr)
        · exact isPath_snoc.2 ⟨r, hpathr, hcsup ▸ hc, hcs⟩
        · rw [if_pos (hfresh x h2).1]
          simp only [List.length_append, List.length_singleton]
          omega
    -- d_bound
    · intro x hx
      dsimp only
      by_cases hold : ctx x = Trace.NotVisited
      · have hxnew : x ∈ new := (horig x hx).resolve_left (fun hc => hc hold)
        have hlen1 : 1 ≤ new.length := List.length_pos_of_mem hxnew
        have := inv.d_bound r hrvis
        rw [if_pos hold]
        omega
      · have := inv.d_bound x hold
        rw [if_neg hold]
        omega
    -- levels
    · obtain ⟨k, ⟨q1, q2, hq, h1, h2⟩, hproc⟩ := inv.levels
      have hd'Q : ∀ y ∈ Q', (if ctx y = Trace.NotVisited then d r + 1 else d y) = d y := by
        intro y hy
        exact if_neg (inv.queue_visited y (List.mem_cons_of_mem _ hy))
      have hd'new : ∀ s ∈ new, (if ctx s = Trace.NotVisited then d r + 1 else d s) = d r + 1 := by
        intro s hs
        exact if_pos (hfresh s hs).1
      cases q1 with
      | nil =>
        simp only [List.nil_append] at hq
        have hr : d r = k + 1 := h2 r (hq ▸ List.mem_cons_self _ _)
        have hQ'k : ∀ y ∈ Q', d y = k + 1 := by
          intro y hy
          exact h2 y (hq ▸ List.mem_cons_of_mem _ hy)
        refine ⟨k + 1, ⟨Q', new, rfl, ?_, ?_⟩, ?_⟩
        · intro x hx
          rw [hd'Q x hx]
          exact hQ'k x hx
        · intro x hx
          rw [hd'new x hx, hr]
        · intro a ha hnq
          by_cases hold : ctx a = Trace.NotVisited
          · exact absurd (List.mem_append_right _
              ((horig a ha).resolve_left (fun hc => hc hold))) hnq
          · rw [if_neg hold]
            by_cases har : a = r
            · subst har; omega
            · have hperm : a ∉ r :: Q' := by
                intro hmem
                rcases List.mem_cons.1 hmem with h' | h'
                · exact har h'
                · exact hnq (List.mem_append_left _ h')
              have := hproc a hold hperm
              omega
      | cons b q1' =>
        rw [List.cons_append] at hq
        injection hq with hrb hrest
        subst hrb
        have hr : d r = k := h1 r (List.mem_cons_self _ _)
        refine ⟨k, ⟨q1', q2 ++ new, by rw [hrest, List.append_assoc], ?_, ?_⟩, ?_⟩
        · intro x hx
          rw [hd'Q x (by rw [hrest]; exact List.mem_append_left _ hx)]
          exact h1 x (List.mem_cons_of_mem _ hx)
        · intro x hx
          rcases List.mem_append.1 hx with hx1 | hx2
          · rw [hd'Q x (by rw [hrest]; exact List.mem_append_right _ hx1)]
            exact h2 x hx1
          · rw [hd'new x hx2, hr]
        · intro a ha hnq
          by_cases hold : ctx a = Trace.NotVisited
          · exact absurd (List.mem_append_right _
              ((horig a ha).resolve_left (fun hc => hc hold))) hnq
          · rw [if_neg hold]
            by_cases har : a = r
            · subst har; omega
            · have hperm : a ∉ r :: Q' := by
                intro hmem
                rcases List.mem_cons.1 hmem with h' | h'
                · exact har h'
                · exact hnq (List.mem_append_left _ h')
              exact hproc a hold hperm
    -- processed_no_tt
    · intro a ha hnq
      by_cases hold : ctx a = Trace.NotVisited
      · exact absurd (List.mem_append_right _
          ((horig a ha).resolve_left (fun hc => hc hold))) hnq
      · by_cases har : a = r
        · subst har; exact htt
        · refine inv.processed_no_tt a hold ?_
          intro hmem
          rcases List.mem_cons.1 hmem with h' | h'
          · exact har h'
          · exact hnq (List.mem_append_left _ h')
    -- processed_closed
    · intro a ha hnq c hc
      dsimp only
      by_cases hold : ctx a = Trace.NotVisited
      · exact absurd (List.mem_append_right _
          ((horig a ha).resolve_left (fun hcc => hcc hold))) hnq
      · rw [if_neg hold]
        by_cases har : a = r
        · rw [har]
          refine ⟨hcov c (har ▸ hc), ?_⟩
          by_cases hsub : ctx c.sub = Trace.NotVisited
          · rw [if_pos hsub]
          · rw [if_neg hsub]
            by_cases hqm : c.sub ∈ r :: Q'
            · exact hQbound.1 c.sub hqm
            · exact (hQbound.2 c.sub hsub hqm).trans (Nat.le_succ _)
        · have hperm : a ∉ r :: Q' := by
            intro hmem
            rcases List.mem_cons.1 hmem with h' | h'
            · exact har h'
            · exact hnq (List.mem_append_left _ h')
          obtain ⟨hvis, hd⟩ := inv.processed_closed a hold hperm c hc
          refine ⟨by rw [hmono c.sub hvis]; exact hvis, ?_⟩
          rw [if_neg hvis]
          exact hd
  · have hlen : (Q' ++ new).length = Q'.length + new.length := List.length_append _ _
    simp only [List.length_cons]
    omega

theorem bfs_master {g : ConstraintGraph} {tt : Nat → Bool} {fr : Nat} (hwf : g.WF) :
    ∀ (fuel : Nat) (queue : List Nat) (ctx : Nat → Trace) (d : Nat → Nat),
      BfsInv g tt fr queue ctx d →
      queue.length + unvisitedCount g.numRegions ctx ≤ fuel →
      (∃ p t, bfsLoop g tt fuel queue ctx = BfsResult.found p t ∧ tt t = true ∧
        IsPath g fr p t ∧
        ∀ q t', IsPath g fr q t' → tt t' = true → p.length ≤ q.length) ∨
      (bfsLoop g tt fuel queue ctx = BfsResult.exhausted ∧
        ∀ q t', IsPath g fr q t' → tt t' = false) := by
  intro fuel
  induction fuel with
  | zero =>
    intro queue ctx d inv hfuel
    have hq : queue = [] := List.length_eq_zero.1 (by omega)
    subst hq
    refine Or.inr ⟨rfl, ?_⟩
    intro q t' hpath
    rcases bfs_reach inv q t' hpath with ⟨hvis, hnq, _⟩ | ⟨y, hy, _⟩
    · exact inv.processed_no_tt t' hvis hnq
    · exact absurd hy (List.not_mem_nil y)
  | succ fuel ih =>
    intro queue ctx d inv hfuel
    cases queue with
    | nil =>
      refine Or.inr ⟨rfl, ?_⟩
      intro q t' hpath
      rcases bfs_reach inv q t' hpath with ⟨hvis, hnq, _⟩ | ⟨y, hy, _⟩
      · exact inv.processed_no_tt t' hvis hnq
      · exact absurd hy (List.not_mem_nil y)
    | cons r Q' =>
      have hrvis : ctx r ≠ Trace.NotVisited :=
        inv.queue_visited r (List.mem_cons_self _ _)
      by_cases htt : tt r = true
      · obtain ⟨p, hrel, hpath, hlen⟩ := inv.recon r hrvis
        have hdb := inv.d_bound r hrvis
        have hplen : p.length < g.numRegions + 1 := by omega
        have hrec : reconstructPath ctx (g.numRegions + 1) r [] = ReconResult.ok p := by
          have := reconstructPath_of_reconRel hrel (g.numRegions + 1) [] hplen
          simpa using this
        refine Or.inl ⟨p, r, ?_, htt, hpath, ?_⟩
        · simp [bfsLoop, htt, hrec]
        · intro q t' hq htt'
          rcases bfs_reach inv q t' hq with ⟨hvis, hnq, _⟩ | ⟨y, hy, hd⟩
          · simp [inv.processed_no_tt t' hvis hnq] at htt'
          · have hmin := bfs_head_min inv y hy
            omega
      · replace htt : tt r = false := Bool.eq_false_iff.2 htt
        obtain ⟨ctx', queue', heq, inv', hdec⟩ := bfsInv_step hwf inv htt
        have hstep : bfsLoop g tt (fuel + 1) (r :: Q') ctx =
            bfsLoop g tt fuel queue' ctx' := by
          simp only [bfsLoop, htt, Bool.false_eq_true, if_false, heq]
        rw [hstep]
        exact ih queue' ctx' _ inv' (by simp only [List.length_cons] at hfuel hdec; omega)

theorem bfsLoop_fuel_succ (g : ConstraintGraph) (tt : Nat → Bool) :
    ∀ (fuel : Nat) (queue : List Nat) (ctx : Nat → Trace),
      bfsLoop g tt fuel queue ctx ≠ BfsResult.fuelOut →
      bfsLoop g tt (fuel + 1) queue ctx = bfsLoop g tt fuel queue ctx := by
  intro fuel
  induction fuel with
  | zero =>
    intro queue ctx h
    cases queue with
    | nil => rfl
    | cons r Q' => exact absurd rfl h
  | succ fuel ih =>
    intro queue ctx h
    cases queue with
    | nil => rfl
    | cons r Q' =>
      by_cases htt : tt r = true
      · simp [bfsLoop, htt]
      · replace htt : tt r = false := Bool.eq_false_iff.2 htt
        have e2 : bfsLoop g tt (fuel + 1) (r :: Q') ctx =
            bfsLoop g tt fuel
              (processEdges (outgoingEdges g r) ctx Q').2
              (processEdges (outgoingEdges g r) ctx Q').1 := by
          simp only [bfsLoop, htt, Bool.false_eq_true, if_false]
        have e1 : bfsLoop g tt (fuel + 1 + 1) (r :: Q') ctx =
            bfsLoop g tt (fuel + 1)
              (processEdges (outgoingEdges g r) ctx Q').2
              (processEdges (outgoingEdges g r) ctx Q').1 := by
          simp only [bfsLoop, htt, Bool.false_eq_true, if_false]
        rw [e2] at h
        rw [e1, e2, ih _ _ h]

/-! ### What the search entry point returns -/

theorem find_initial_fuel (g : ConstraintGraph) (fr : Nat) :
    (1 : Nat) + unvisitedCount g.numRegions
      (fun x => if x = fr then Trace.StartRegion else Trace.NotVisited) ≤
      g.numRegions + 1 := by
  have := unvisitedCount_le g.numRegions
    (fun x => if x = fr then Trace.StartRegion else Trace.NotVisited)
  omega

theorem find_cases {g : ConstraintGraph} {fr : Nat} (tt : Nat → Bool)
    (hwf : g.WF) (hfr : fr < g.numRegions) :
    (∃ p t, find_constraint_paths_between_regions g fr tt = BfsResult.found p t ∧
      tt t = true ∧ IsPath g fr p t ∧
      ∀ q t', IsPath g fr q t' → tt t' = true → p.length ≤ q.length) ∨
    (find_constraint_paths_between_regions g fr tt = BfsResult.exhausted ∧
      ∀ q t', IsPath g fr q t' → tt t' = false) := by
  have hinit := bfsInv_init g tt fr hfr
  have h := bfs_master hwf (g.numRegions + 1) [fr]
    (fun x => if x = fr then Trace.StartRegion else Trace.NotVisited)
    (fun _ => 0) hinit (by simpa using find_initial_fuel g fr)
  exact h

theorem find_found_spec {g : ConstraintGraph} {fr : Nat} {tt : Nat → Bool}
    (hwf : g.WF) (hfr : fr < g.numRegions) {path : List OutlivesConstraint} {t : Nat}
    (h : find_constraint_paths_between_regions g fr tt = BfsResult.found path t) :
    tt t = true ∧ IsPath g fr path t ∧
      ∀ q t', IsPath g fr q t' → tt t' = true → path.length ≤ q.length := by
  rcases find_cases tt hwf hfr with ⟨p, t', heq, h1, h2, h3⟩ | ⟨heq, _⟩
  · rw [h] at heq
    injection heq with he1 he2
    subst he1; subst he2
    exact ⟨h1, h2, h3⟩
  · rw [h] at heq
    exact absurd heq (fun hh => BfsResult.noConfusion hh)

theorem find_exhausted_iff {g : ConstraintGraph} {fr : Nat} {tt : Nat → Bool}
    (hwf : g.WF) (hfr : fr < g.numRegions) :
    find_constraint_paths_between_regions g fr tt = BfsResult.exhausted ↔
      ¬ ∃ (q : List OutlivesConstraint) (t : Nat), IsPath g fr q t ∧ tt t = true := by
  constructor
  · intro h
    rcases find_cases tt hwf hfr with ⟨p, t', heq, _, _, _⟩ | ⟨_, hall⟩
    · rw [h] at heq
      exact absurd heq.symm (fun hh => BfsResult.noConfusion hh)
    · rintro ⟨q, t, hpath, htt⟩
      rw [hall q t hpath] at htt
      exact Bool.noConfusion htt
  · intro hno
    rcases find_cases tt hwf hfr with ⟨p, t', heq, h1, h2, _⟩ | ⟨heq, _⟩
    · exact absurd ⟨p, t', h2, h1⟩ hno
    · exact heq

theorem find_not_fuelOut {g : ConstraintGraph} {fr : Nat} {tt : Nat → Bool}
    (hwf : g.WF) (hfr : fr < g.numRegions) :
    find_constraint_paths_between_regions g fr tt ≠ BfsResult.fuelOut ∧
    find_constraint_paths_between_regions g fr tt ≠ BfsResult.panicked := by
  rcases find_cases tt hwf hfr with ⟨p, t', heq, _, _, _⟩ | ⟨heq, _⟩ <;>
    rw [heq] <;>
    exact ⟨fun hh => BfsResult.noConfusion hh, fun hh => BfsResult.noConfusion hh⟩

theorem findPathsWithFuel_stable {g : ConstraintGraph} {fr : Nat} {tt : Nat → Bool}
    (hwf : g.WF) (hfr : fr < g.numRegions) :
    ∀ fuel, g.numRegions + 1 ≤ fuel →
      findPathsWithFuel g fuel fr tt =
        find_constraint_paths_between_regions g fr tt := by
  intro fuel hfuel
  induction fuel, hfuel using Nat.le_induction with
  | base => rfl
  | succ fuel hfuel ih =>
    have hne : bfsLoop g tt fuel [fr]
        (fun x => if x = fr then Trace.StartRegion else Trace.NotVisited) ≠
        BfsResult.fuelOut := by
      have : findPathsWithFuel g fuel fr tt ≠ BfsResult.fuelOut := by
        rw [ih]
        exact (find_not_fuelOut hwf hfr).1
      exact this
    calc findPathsWithFuel g (fuel + 1) fr tt
        = findPathsWithFuel g fuel fr tt := bfsLoop_fuel_succ g tt fuel _ _ hne
      _ = find_constraint_paths_between_regions g fr tt := ih

/-! ### Structure of the returned path (blame-chain well-formedness) -/

theorem isPath_head {g : ConstraintGraph} {a b : Nat}
    {p : List OutlivesConstraint} (h : IsPath g a p b) :
    ∀ c, p.head? = some c → c.sup = a := by
  cases p with
  | nil => intro c hc; cases hc
  | cons c0 p =>
    intro c hc
    injection hc with hc
    subst hc
    exact outgoingEdges_sup h.1

theorem isPath_links {g : ConstraintGraph} {a b : Nat}
    {p : List OutlivesConstraint} (h : IsPath g a p b) :
    ∀ i c c', p.get? i = some c → p.get? (i + 1) = some c' → c.sub = c'.sup := by
  induction p generalizing a with
  | nil => intro i c c' hc; cases hc
  | cons c0 p ih =>
    intro i c c' hc hc'
    cases i with
    | zero =>
      injection hc with hc
      subst hc
      cases p with
      | nil => cases hc'
      | cons c1 p' =>
        injection hc' with hc'
        subst hc'
        exact (outgoingEdges_sup (h.2).1).symm
    | succ i =>
      exact ih h.2 i c c' hc hc'

theorem isPath_last {g : ConstraintGraph} {a b : Nat}
    {p : List OutlivesConstraint} (h : IsPath g a p b) :
    ∀ c, p.getLast? = some c → c.sub = b := by
  induction p generalizing a with
  | nil => intro c hc; cases hc
  | cons c0 p ih =>
    intro c hc
    cases p with
    | nil =>
      simp only [List.getLast?_singleton] at hc
      injection hc with hc
      subst hc
      exact h.2
    | cons c1 p' =>
      rw [List.getLast?_cons_cons] at hc
      exact ih h.2 c hc

theorem find_from_satisfies (g : ConstraintGraph) {fr : Nat} {tt : Nat → Bool}
    (htt : tt fr = true) :
    find_constraint_paths_between_regions g fr tt = BfsResult.found [] fr := by
  unfold find_constraint_paths_between_regions findPathsWithFuel
  show bfsLoop g tt (g.numRegions + 1) [fr] _ = _
  simp [bfsLoop, htt, reconstructPath]

/-! ### Claims about the path finder -/

/-- Claim C2: whenever `find_constraint_paths_between_regions` returns
`Some((path, target))`, the edge count of `path` equals the minimum number of
constraint edges on any path from `from_region` to any region satisfying the
target test — the returned path itself reaches a satisfying region, and no
strictly shorter edge sequence from `from_region` reaches one. -/
theorem find_paths_shortest (g : ConstraintGraph) (fr : Nat)
    (tt : Nat → Bool) {path : List OutlivesConstraint} {t : Nat}
    (hwf : g.WF) (hfr : fr < g.numRegions)
    (h : find_constraint_paths_between_regions g fr tt = BfsResult.found path t) :
    tt t = true ∧ IsPath g fr path t ∧
      ∀ q t', IsPath g fr q t' → tt t' = true → path.length ≤ q.length :=
  find_found_spec hwf hfr h

theorem find_paths_shortest_applied :
    ((fun r => r == 3) 3 = true) ∧
    IsPath gA 0
      [{ sup := 0, sub := 1, category := ConstraintCategory.Assignment, locations := 1 },
       { sup := 1, sub := 2, category := ConstraintCategory.Assignment, locations := 2 },
       { sup := 2, sub := 3, category := ConstraintCategory.Assignment, locations := 3 }] 3 ∧
    ∀ q t', IsPath gA 0 q t' → (fun r => r == 3) t' = true →
      ([{ sup := 0, sub := 1, category := ConstraintCategory.Assignment, locations := 1 },
        { sup := 1, sub := 2, category := ConstraintCategory.Assignment, locations := 2 },
        { sup := 2, sub := 3, category := ConstraintCategory.Assignment, locations := 3 }] :
        List OutlivesConstraint).length ≤ q.length :=
  find_paths_shortest gA 0 (fun r => r == 3) (by decide) (by decide) (by decide)

/-- Claim C4: a returned search result is a well-formed blame chain — the
target satisfies the test, the first edge leaves `from_region`, consecutive
edges are linked (`sub` of one is `sup` of the next), the last edge enters the
target, and when `from_region` itself satisfies the test the path is empty
with target `from_region`. -/
theorem find_paths_chain (g : ConstraintGraph) (fr : Nat)
    (tt : Nat → Bool) {path : List OutlivesConstraint} {t : Nat}
    (hwf : g.WF) (hfr : fr < g.numRegions)
    (h : find_constraint_paths_between_regions g fr tt = BfsResult.found path t) :
    tt t = true ∧
    (∀ c, path.head? = some c → c.sup = fr) ∧
    (∀ i c c', path.get? i = some c → path.get? (i + 1) = some c' → c.sub = c'.sup) ∧
    (∀ c, path.getLast? = some c → c.sub = t) ∧
    (tt fr = true → path = [] ∧ t = fr) := by
  obtain ⟨h1, h2, _⟩ := find_found_spec hwf hfr h
  refine ⟨h1, isPath_head h2, isPath_links h2, isPath_last h2, ?_⟩
  intro htt
  have hfs := find_from_satisfies g htt
  rw [h] at hfs
  injection hfs with e1 e2
  exact ⟨e1, e2⟩

theorem find_paths_chain_applied :
    ((fun r => r == 3) 3 = true) ∧
    (∀ c, ([{ sup := 0, sub := 1, category := ConstraintCategory.Assignment, locations := 1 },
       { sup := 1, sub := 2, category := ConstraintCategory.Assignment, locations := 2 },
       { sup := 2, sub := 3, category := ConstraintCategory.Assignment, locations := 3 }] :
       List OutlivesConstraint).head? = some c → c.sup = 0) ∧
    (∀ i c c', ([{ sup := 0, sub := 1, category := ConstraintCategory.Assignment, locations := 1 },
       { sup := 1, sub := 2, category := ConstraintCategory.Assignment, locations := 2 },
       { sup := 2, sub := 3, category := ConstraintCategory.Assignment, locations := 3 }] :
       List OutlivesConstraint).get? i = some c →
       ([{ sup := 0, sub := 1, category := ConstraintCategory.Assignment, locations := 1 },
       { sup := 1, sub := 2, category := ConstraintCategory.Assignment, locations := 2 },
       { sup := 2, sub := 3, category := ConstraintCategory.Assignment, locations := 3 }] :
       List OutlivesConstraint).get? (i + 1) = some c' → c.sub = c'.sup) ∧
    (∀ c, ([{ sup := 0, sub := 1, category := ConstraintCategory.Assignment, locations := 1 },
       { sup := 1, sub := 2, category := ConstraintCategory.Assignment, locations := 2 },
       { sup := 2, sub := 3, category := ConstraintCategory.Assignment, locations := 3 }] :
       List OutlivesConstraint).getLast? = some c → c.sub = 3) ∧
    ((fun r => r == 3) 0 = true →
      ([{ sup := 0, sub := 1, category := ConstraintCategory.Assignment, locations := 1 },
       { sup := 1, sub := 2, category := ConstraintCategory.Assignment, locations := 2 },
       { sup := 2, sub := 3, category := ConstraintCategory.Assignment, locations := 3 }] :
       List OutlivesConstraint) = [] ∧ 3 = 0) :=
  find_paths_chain gA 0 (fun r => r == 3) (by decide) (by decide) (by decide)

/-- Claim C5: the search returns `None` exactly when no region satisfying the
target test is reachable from `from_region` along outgoing constraint edges
(the implicit edge to the static sentinel included); it never returns `None`
when a satisfying region is reachable. -/
theorem find_paths_none_iff_unreachable (g : ConstraintGraph) (fr : Nat)
    (tt : Nat → Bool) (hwf : g.WF) (hfr : fr < g.numRegions) :
    find_constraint_paths_between_regions g fr tt = BfsResult.exhausted ↔
      ¬ ∃ (q : List OutlivesConstraint) (t : Nat), IsPath g fr q t ∧ tt t = true :=
  find_exhausted_iff hwf hfr

theorem find_paths_none_iff_unreachable_applied :
    (find_constraint_paths_between_regions gA 0 (fun r => r == 7) =
      BfsResult.exhausted ↔
      ¬ ∃ (q : List OutlivesConstraint) (t : Nat),
        IsPath gA 0 q t ∧ (fun r => r == 7) t = true) ∧
    find_constraint_paths_between_regions gA 0 (fun r => r == 7) =
      BfsResult.exhausted :=
  ⟨find_paths_none_iff_unreachable gA 0 (fun r => r == 7) (by decide) (by decide),
    by decide⟩

/-- Claim C10: the search terminates — with the canonical fuel budget it never
reports fuel exhaustion, the backward reconstruction never fails to reach the
start region, and any larger fuel budget computes the same result. -/
theorem find_paths_terminates (g : ConstraintGraph) (fr : Nat)
    (tt : Nat → Bool) (hwf : g.WF) (hfr : fr < g.numRegions) :
    find_constraint_paths_between_regions g fr tt ≠ BfsResult.fuelOut ∧
    find_constraint_paths_between_regions g fr tt ≠ BfsResult.panicked ∧
    ∀ fuel, g.numRegions + 1 ≤ fuel →
      findPathsWithFuel g fuel fr tt =
        find_constraint_paths_between_regions g fr tt :=
  ⟨(find_not_fuelOut hwf hfr).1, (find_not_fuelOut hwf hfr).2,
    findPathsWithFuel_stable hwf hfr⟩

theorem find_paths_terminates_applied :
    find_constraint_paths_between_regions gA 0 (fun r => r == 3) ≠
      BfsResult.fuelOut ∧
    find_constraint_paths_between_regions gA 0 (fun r => r == 3) ≠
      BfsResult.panicked ∧
    ∀ fuel, gA.numRegions + 1 ≤ fuel →
      findPathsWithFuel gA fuel 0 (fun r => r == 3) =
        find_constraint_paths_between_regions gA 0 (fun r => r == 3) :=
  find_paths_terminates gA 0 (fun r => r == 3) (by decide) (by decide)

/-! ### The primary backward scan of `best_blame_constraint` -/

theorem range_reverse_cons (n : Nat) :
    (List.range (n + 1)).reverse = n :: (List.range n).reverse := by
  rw [List.range_succ, List.reverse_append]
  rfl

theorem findRevRange_none {pred : Nat → Bool} :
    ∀ {n : Nat}, (List.range n).reverse.find? pred = none →
      ∀ j, j < n → pred j = false := by
  intro n
  induction n with
  | zero => intro _ j hj; omega
  | succ n ih =>
    intro h j hj
    rw [range_reverse_cons] at h
    by_cases hp : pred n = true
    · rw [List.find?_cons_of_pos _ hp] at h
      exact absurd h (fun hh => Option.noConfusion hh)
    · have hp' : pred n = false := Bool.eq_false_iff.2 hp
      rw [List.find?_cons_of_neg _ hp] at h
      rcases Nat.lt_succ_iff_lt_or_eq.1 hj with hj' | rfl
      · exact ih h j hj'
      · exact hp'

theorem findRevRange_some {pred : Nat → Bool} :
    ∀ {n i : Nat}, (List.range n).reverse.find? pred = some i →
      i < n ∧ pred i = true ∧ ∀ j, i < j → j < n → pred j = false := by
  intro n
  induction n with
  | zero => intro i h; simp at h
  | succ n ih =>
    intro i h
    rw [range_reverse_cons] at h
    by_cases hp : pred n = true
    · rw [List.find?_cons_of_pos _ hp] at h
      injection h with h
      subst h
      exact ⟨Nat.lt_succ_self _, hp, fun j hj hj' => by omega⟩
    · have hp' : pred n = false := Bool.eq_false_iff.2 hp
      rw [List.find?_cons_of_neg _ hp] at h
      obtain ⟨h1, h2, h3⟩ := ih h
      refine ⟨by omega, h2, ?_⟩
      intro j hj hj'
      rcases Nat.lt_succ_iff_lt_or_eq.1 hj' with hj'' | rfl
      · exact h3 j hj hj''
      · exact hp'

theorem findRevRange_exists {pred : Nat → Bool} {n j : Nat}
    (hj : j < n) (hpj : pred j = true) :
    ∃ i, (List.range n).reverse.find? pred = some i := by
  cases h : (List.range n).reverse.find? pred with
  | none =>
    rw [findRevRange_none h j hj] at hpj
    exact Bool.noConfusion hpj
  | some i => exact ⟨i, rfl⟩

theorem getD_of_get? {l : List OutlivesConstraint} {i : Nat} {c : OutlivesConstraint}
    (hc : l.get? i = some c) (dflt : OutlivesConstraint) : l.getD i dflt = c := by
  rw [List.getD_eq_getD_get?, hc]
  rfl

theorem getD_map_of_get? {l : List OutlivesConstraint} {i : Nat} {c : OutlivesConstraint}
    (hc : l.get? i = some c) (dflt : ConstraintCategory × Nat) :
    (l.map fun c => (c.category, c.locations)).getD i dflt = (c.category, c.locations) := by
  rw [List.getD_eq_getD_get?, List.get?_map, hc]
  rfl

theorem blameQualifies_iff {g : ConstraintGraph} {tscc : Nat}
    {path : List OutlivesConstraint} {i : Nat} {c : OutlivesConstraint}
    (hc : path.get? i = some c) :
    blameQualifies g tscc path (path.map fun c => (c.category, c.locations)) i = true ↔
      ((c.category ≠ ConstraintCategory.OpaqueType ∧
        c.category ≠ ConstraintCategory.Boring ∧
        c.category ≠ ConstraintCategory.BoringNoLocation ∧
        c.category ≠ ConstraintCategory.Internal) ∧ g.scc c.sup ≠ tscc) := by
  unfold blameQualifies
  rw [getD_of_get? hc, getD_map_of_get? hc]
  cases hcat : c.category <;> simp [bne_iff_ne]

/-- Claim C1: for every call to `best_blame_constraint` in which the BFS
returns a path, the primary selection returns the `(category, span)` of the
edge at the *largest* index whose category is none of {OpaqueType, Boring,
BoringNoLocation, Internal} and whose `sup` endpoint lies in a different SCC
than the found target region, provided such an edge exists. -/
theorem best_blame_primary_selection (g : ConstraintGraph) (fr : Nat)
    (tt : Nat → Bool) {path : List OutlivesConstraint} {t : Nat}
    (h : find_constraint_paths_between_regions g fr tt = BfsResult.found path t)
    (hex : ∃ j c, path.get? j = some c ∧
      ((c.category ≠ ConstraintCategory.OpaqueType ∧
        c.category ≠ ConstraintCategory.Boring ∧
        c.category ≠ ConstraintCategory.BoringNoLocation ∧
        c.category ≠ ConstraintCategory.Internal) ∧ g.scc c.sup ≠ g.scc t)) :
    ∃ i c, path.get? i = some c ∧
      ((c.category ≠ ConstraintCategory.OpaqueType ∧
        c.category ≠ ConstraintCategory.Boring ∧
        c.category ≠ ConstraintCategory.BoringNoLocation ∧
        c.category ≠ ConstraintCategory.Internal) ∧ g.scc c.sup ≠ g.scc t) ∧
      (∀ j c', i < j → path.get? j = some c' →
        ¬ ((c'.category ≠ ConstraintCategory.OpaqueType ∧
          c'.category ≠ ConstraintCategory.Boring ∧
          c'.category ≠ ConstraintCategory.BoringNoLocation ∧
          c'.category ≠ ConstraintCategory.Internal) ∧ g.scc c'.sup ≠ g.scc t)) ∧
      best_blame_constraint g fr tt = some (c.category, c.locations, t) := by
  obtain ⟨j, c0, hj, hq0⟩ := hex
  have hjlt : j < path.length := List.get?_eq_some.1 hj |>.1
  have hpj : blameQualifies g (g.scc t) path
      (path.map fun c => (c.category, c.locations)) j = true :=
    (blameQualifies_iff hj).2 hq0
  obtain ⟨i, hfind⟩ := findRevRange_exists hjlt hpj
  obtain ⟨hilt, hpi, hmax⟩ := findRevRange_some hfind
  obtain ⟨c, hc⟩ : ∃ c, path.get? i = some c := by
    cases hgc : path.get? i with
    | none => rw [List.get?_eq_none] at hgc; omega
    | some c => exact ⟨c, rfl⟩
  refine ⟨i, c, hc, (blameQualifies_iff hc).1 hpi, ?_, ?_⟩
  · intro j' c' hij hj' hq'
    have hj'lt : j' < path.length := List.get?_eq_some.1 hj' |>.1
    have := hmax j' hij hj'lt
    rw [(blameQualifies_iff hj').2 hq'] at this
    exact Bool.noConfusion this
  · unfold best_blame_constraint
    rw [h]
    simp only [hfind]
    rw [getD_map_of_get? hc]

theorem best_blame_primary_selection_applied :
    (∃ i c,
      ([{ sup := 0, sub := 1, category := ConstraintCategory.Assignment, locations := 1 },
        { sup := 1, sub := 2, category := ConstraintCategory.Assignment, locations := 2 },
        { sup := 2, sub := 3, category := ConstraintCategory.Assignment, locations := 3 }] :
        List OutlivesConstraint).get? i = some c ∧
      ((c.category ≠ ConstraintCategory.OpaqueType ∧
        c.category ≠ ConstraintCategory.Boring ∧
        c.category ≠ ConstraintCategory.BoringNoLocation ∧
        c.category ≠ ConstraintCategory.Internal) ∧ gA.scc c.sup ≠ gA.scc 3) ∧
      (∀ j c', i < j →
        ([{ sup := 0, sub := 1, category := ConstraintCategory.Assignment, locations := 1 },
          { sup := 1, sub := 2, category := ConstraintCategory.Assignment, locations := 2 },
          { sup := 2, sub := 3, category := ConstraintCategory.Assignment, locations := 3 }] :
          List OutlivesConstraint).get? j = some c' →
        ¬ ((c'.category ≠ ConstraintCategory.OpaqueType ∧
          c'.category ≠ ConstraintCategory.Boring ∧
          c'.category ≠ ConstraintCategory.BoringNoLocation ∧
          c'.category ≠ ConstraintCategory.Internal) ∧ gA.scc c'.sup ≠ gA.scc 3)) ∧
      best_blame_constraint gA 0 (fun r => r == 3) =
        some (c.category, c.locations, 3)) ∧
    best_blame_constraint gA 0 (fun r => r == 3) =
      some (ConstraintCategory.Assignment, 3, 3) :=
  ⟨best_blame_primary_selection gA 0 (fun r => r == 3) (by decide)
    ⟨2, { sup := 2, sub := 3, category := ConstraintCategory.Assignment, locations := 3 },
      by decide, by decide⟩, by decide⟩

/-! ### The fallback sort -/

theorem mem_insertByCat {x y : ConstraintCategory × Nat}
    {l : List (ConstraintCategory × Nat)} :
    y ∈ insertByCat x l ↔ y = x ∨ y ∈ l := by
  induction l with
  | nil => simp [insertByCat]
  | cons z l ih =>
    unfold insertByCat
    by_cases hle : catOrd x.1 ≤ catOrd z.1
    · simp [hle]
    · simp [hle, ih]
      tauto

theorem mem_sortByCat {y : ConstraintCategory × Nat}
    {l : List (ConstraintCategory × Nat)} :
    y ∈ sortByCat l ↔ y ∈ l := by
  induction l with
  | nil => simp [sortByCat]
  | cons x l ih =>
    unfold sortByCat
    rw [mem_insertByCat]
    simp [ih]

theorem insertByCat_sorted {x : ConstraintCategory × Nat}
    {l : List (ConstraintCategory × Nat)}
    (h : List.Sorted (fun a b : ConstraintCategory × Nat =>
      catOrd a.1 ≤ catOrd b.1) l) :
    List.Sorted (fun a b : ConstraintCategory × Nat =>
      catOrd a.1 ≤ catOrd b.1) (insertByCat x l) := by
  induction l with
  | nil => simp [insertByCat]
  | cons z l ih =>
    rw [List.sorted_cons] at h
    unfold insertByCat
    by_cases hle : catOrd x.1 ≤ catOrd z.1
    · rw [if_pos hle, List.sorted_cons]
      refine ⟨?_, List.sorted_cons.2 h⟩
      intro b hb
      rcases List.mem_cons.1 hb with rfl | hb'
      · exact hle
      · exact hle.trans (h.1 b hb')
    · rw [if_neg hle, List.sorted_cons]
      refine ⟨?_, ih h.2⟩
      intro b hb
      rcases mem_insertByCat.1 hb with rfl | hb'
      · omega
      · exact h.1 b hb'

theorem sortByCat_sorted (l : List (ConstraintCategory × Nat)) :
    List.Sorted (fun a b : ConstraintCategory × Nat =>
      catOrd a.1 ≤ catOrd b.1) (sortByCat l) := by
  induction l with
  | nil => simp [sortByCat]
  | cons x l ih => exact insertByCat_sorted ih

theorem sortByCat_eq_nil {l : List (ConstraintCategory × Nat)} :
    sortByCat l = [] ↔ l = [] := by
  constructor
  · intro h
    cases l with
    | nil => rfl
    | cons x l =>
      exfalso
      have : x ∈ sortByCat (x :: l) := mem_sortByCat.2 (List.mem_cons_self _ _)
      rw [h] at this
      exact List.not_mem_nil x this
  · rintro rfl
    rfl

theorem sortByCat_head_min {l rest : List (ConstraintCategory × Nat)}
    {e : ConstraintCategory × Nat} (h : sortByCat l = e :: rest) :
    ∀ y ∈ l, catOrd e.1 ≤ catOrd y.1 := by
  intro y hy
  have hs := sortByCat_sorted l
  rw [h, List.sorted_cons] at hs
  have hmem : y ∈ sortByCat l := mem_sortByCat.2 hy
  rw [h] at hmem
  rcases List.mem_cons.1 hmem with rfl | hmem'
  · exact Nat.le_refl _
  · exact hs.1 y hmem'

/-- Claim C3 counterexample: when `from_region` itself satisfies the target
test the BFS returns the empty path, and `best_blame_constraint` then hits
`categorized_path.first().unwrap()` on an empty vector — modelled as `none` —
rather than returning a result. -/
theorem best_blame_empty_path_counterexample :
    find_constraint_paths_between_regions gA 0 (fun r => r == 0) =
      BfsResult.found [] 0 ∧
    best_blame_constraint gA 0 (fun r => r == 0) = none := by decide

/-- Claim C3 (amended): for every call in which the BFS returns a *non-empty*
path, `best_blame_constraint` returns a result without panicking; when no edge
qualifies in the primary backward scan, that result is the first entry of the
categorized path after sorting by the fixed total order on categories — an
entry of the categorized path of minimal category rank. -/
theorem best_blame_nonempty_no_panic (g : ConstraintGraph) (fr : Nat)
    (tt : Nat → Bool) {path : List OutlivesConstraint} {t : Nat}
    (h : find_constraint_paths_between_regions g fr tt = BfsResult.found path t)
    (hne : path ≠ []) :
    ∃ cat span, best_blame_constraint g fr tt = some (cat, span, t) ∧
      ((List.range path.length).reverse.find?
          (blameQualifies g (g.scc t) path
            (path.map fun c => (c.category, c.locations))) = none →
        ∃ rest, sortByCat (path.map fun c => (c.category, c.locations)) =
            (cat, span) :: rest ∧
          (cat, span) ∈ path.map (fun c => (c.category, c.locations)) ∧
          ∀ e ∈ path.map (fun c => (c.category, c.locations)),
            catOrd cat ≤ catOrd e.1) := by
  unfold best_blame_constraint
  rw [h]
  cases hfind : (List.range path.length).reverse.find?
      (blameQualifies g (g.scc t) path
        (path.map fun c => (c.category, c.locations))) with
  | some i =>
    obtain ⟨hilt, _, _⟩ := findRevRange_some hfind
    obtain ⟨c, hc⟩ : ∃ c, path.get? i = some c := by
      cases hgc : path.get? i with
      | none => rw [List.get?_eq_none] at hgc; omega
      | some c => exact ⟨c, rfl⟩
    refine ⟨c.category, c.locations, ?_, ?_⟩
    · simp only [hfind]
      rw [getD_map_of_get? hc]
    · intro hnone
      exact Option.noConfusion hnone
  | none =>
    have hmapne : path.map (fun c => (c.category, c.locations)) ≠ [] := by
      intro hnil
      exact hne (List.map_eq_nil.1 hnil)
    cases hsort : sortByCat (path.map fun c => (c.category, c.locations)) with
    | nil => exact absurd (sortByCat_eq_nil.1 hsort) hmapne
    | cons e rest =>
      refine ⟨e.1, e.2, ?_, ?_⟩
      · simp only [hfind, hsort]
      · intro _
        refine ⟨rest, rfl, ?_, ?_⟩
        · have : e ∈ sortByCat (path.map fun c => (c.category, c.locations)) := by
            rw [hsort]; exact List.mem_cons_self _ _
          exact mem_sortByCat.1 this
        · exact sortByCat_head_min hsort

theorem best_blame_nonempty_no_panic_applied :
    ∃ cat span, best_blame_constraint gC 0 (fun r => r == 2) =
        some (cat, span, 2) ∧
      ((List.range
          ([{ sup := 0, sub := 1, category := ConstraintCategory.Return, locations := 10 },
            { sup := 1, sub := 2, category := ConstraintCategory.Assignment, locations := 20 }] :
            List OutlivesConstraint).length).reverse.find?
          (blameQualifies gC (gC.scc 2)
            [{ sup := 0, sub := 1, category := ConstraintCategory.Return, locations := 10 },
             { sup := 1, sub := 2, category := ConstraintCategory.Assignment, locations := 20 }]
            (([{ sup := 0, sub := 1, category := ConstraintCategory.Return, locations := 10 },
              { sup := 1, sub := 2, category := ConstraintCategory.Assignment, locations := 20 }] :
              List OutlivesConstraint).map fun c => (c.category, c.locations))) = none →
        ∃ rest, sortByCat
            (([{ sup := 0, sub := 1, category := ConstraintCategory.Return, locations := 10 },
              { sup := 1, sub := 2, category := ConstraintCategory.Assignment, locations := 20 }] :
              List OutlivesConstraint).map fun c => (c.category, c.locations)) =
            (cat, span) :: rest ∧
          (cat, span) ∈ ([{ sup := 0, sub := 1, category := ConstraintCategory.Return, locations := 10 },
            { sup := 1, sub := 2, category := ConstraintCategory.Assignment, locations := 20 }] :
            List OutlivesConstraint).map (fun c => (c.category, c.locations)) ∧
          ∀ e ∈ ([{ sup := 0, sub := 1, category := ConstraintCategory.Return, locations := 10 },
            { sup := 1, sub := 2, category := ConstraintCategory.Assignment, locations := 20 }] :
            List OutlivesConstraint).map (fun c => (c.category, c.locations)),
            catOrd cat ≤ catOrd e.1) :=
  best_blame_nonempty_no_panic gC 0 (fun r => r == 2) (by decide)
    (fun hh => List.noConfusion hh)

/-! ### The reporting half -/

theorem add_static_message (env : Env) (diag : Diagnostic) (fr : Nat)
    (fr_name : RegionName) (outlived_fr : Nat) :
    (add_static_impl_trait_suggestion env diag fr fr_name outlived_fr).message =
      diag.message := by
  unfold add_static_impl_trait_suggestion
  dsimp only
  rcases h1 : env.to_error_region fr with _ | f
  · rfl
  rcases h2 : env.to_error_region outlived_fr with _ | o
  · rfl
  cases o with
  | ReOther k => rfl
  | ReStatic =>
    dsimp only
    rcases h3 : ((env.is_suitable_region f).map env.return_type_impl_trait).getD none
      with _ | ty
    · rfl
    cases ty with
    | OtherTy k => rfl
    | OpaqueTy did substs =>
      dsimp only
      by_cases hcs :
        containsStaticOutlives (env.instantiated_predicates did substs) = true
      · rw [if_pos hcs]
        rfl
      · rw [if_neg hcs]
        rcases h4 : env.span_to_snippet (env.def_span did) with _ | snippet
        · rfl
        · rfl

theorem report_general_error_appends (env : Env) (fr : Nat) (frl : Bool)
    (outlived_fr : Nat) (oll : Bool) (category : ConstraintCategory) (span : Nat)
    (buf : List Diagnostic) :
    ∃ d, report_general_error env fr frl outlived_fr oll category span buf =
        buf ++ [d] ∧
      d.message = DiagMessage.unsatisfiedLifetimeConstraints := by
  unfold report_general_error
  refine ⟨_, rfl, ?_⟩
  rw [add_static_message]
  split <;> rfl

theorem report_escaping_error_appends (env : Env) (fr outlived_fr : Nat)
    (category : ConstraintCategory) (span : Nat) (buf : List Diagnostic) :
    ∃ d, report_escaping_data_error env fr outlived_fr category span buf =
      buf ++ [d] := by
  unfold report_escaping_data_error
  dsimp only
  split <;> split
  all_goals first
    | exact ⟨_, rfl⟩
    | (obtain ⟨d, hd, _⟩ := report_general_error_appends env fr true outlived_fr
        false category span buf
       exact ⟨d, hd⟩)

/-- Claim C6: in `report_error`, once the specialized nice-region collaborator
has declined, the escaping-data shape is chosen exactly when the blamed
category is Assignment or CallArgument, `fr` is a local free region, and
`outlived_fr` is not; in every other combination the general-constraint shape
is emitted (and it buffers an "unsatisfied lifetime constraints"
diagnostic). -/
theorem report_error_shape_dispatch (g : ConstraintGraph) (env : Env)
    (fr outlived_fr : Nat) (errors_buffer : List Diagnostic)
    {category : ConstraintCategory} {span target : Nat}
    (hbb : best_blame_constraint g fr (fun r => r == outlived_fr) =
      some (category, span, target))
    (hnice : (match env.to_error_region fr, env.to_error_region outlived_fr with
      | some f, some o => env.try_report_from_nll span o f
      | _, _ => false) = false) :
    (((category = ConstraintCategory.Assignment ∨
        category = ConstraintCategory.CallArgument) ∧
      env.is_local_free_region fr = true ∧
      env.is_local_free_region outlived_fr = false) →
      report_error g env fr outlived_fr errors_buffer =
        some (report_escaping_data_error env fr outlived_fr category span
          errors_buffer)) ∧
    (¬ ((category = ConstraintCategory.Assignment ∨
        category = ConstraintCategory.CallArgument) ∧
      env.is_local_free_region fr = true ∧
      env.is_local_free_region outlived_fr = false) →
      report_error g env fr outlived_fr errors_buffer =
        some (report_general_error env fr (env.is_local_free_region fr)
          outlived_fr (env.is_local_free_region outlived_fr) category span
          errors_buffer) ∧
      ∃ d, report_general_error env fr (env.is_local_free_region fr) outlived_fr
          (env.is_local_free_region outlived_fr) category span errors_buffer =
        errors_buffer ++ [d] ∧
        d.message = DiagMessage.unsatisfiedLifetimeConstraints) := by
  constructor
  · rintro ⟨hcat, hfr, hol⟩
    simp only [report_error, hbb]
    rw [hnice]
    simp only [Bool.false_eq_true, if_false]
    rcases hcat with rfl | rfl <;> rw [hfr, hol]
  · intro hneg
    refine ⟨?_, report_general_error_appends env fr
      (env.is_local_free_region fr) outlived_fr
      (env.is_local_free_region outlived_fr) category span errors_buffer⟩
    simp only [report_error, hbb]
    rw [hnice]
    simp only [Bool.false_eq_true, if_false]
    cases hb1 : env.is_local_free_region fr <;>
      cases hb2 : env.is_local_free_region outlived_fr <;>
        cases category <;>
          first
            | rfl
            | exact absurd ⟨by simp, hb1, hb2⟩ hneg

theorem report_error_shape_dispatch_applied :
    (((ConstraintCategory.Assignment = ConstraintCategory.Assignment ∨
        ConstraintCategory.Assignment = ConstraintCategory.CallArgument) ∧
      envBase.is_local_free_region 0 = true ∧
      envBase.is_local_free_region 3 = false) →
      report_error gA envBase 0 3 [] =
        some (report_escaping_data_error envBase 0 3
          ConstraintCategory.Assignment 3 [])) ∧
    (¬ ((ConstraintCategory.Assignment = ConstraintCategory.Assignment ∨
        ConstraintCategory.Assignment = ConstraintCategory.CallArgument) ∧
      envBase.is_local_free_region 0 = true ∧
      envBase.is_local_free_region 3 = false) →
      report_error gA envBase 0 3 [] =
        some (report_general_error envBase 0 (envBase.is_local_free_region 0)
          3 (envBase.is_local_free_region 3) ConstraintCategory.Assignment 3 []) ∧
      ∃ d, report_general_error envBase 0 (envBase.is_local_free_region 0) 3
          (envBase.is_local_free_region 3) ConstraintCategory.Assignment 3 [] =
        [] ++ [d] ∧
        d.message = DiagMessage.unsatisfiedLifetimeConstraints) :=
  report_error_shape_dispatch gA envBase 0 3 []
    (show best_blame_constraint gA 0 (fun r => r == 3) =
      some (ConstraintCategory.Assignment, 3, 3) by decide) (by decide)

/-- Claim C7: `report_escaping_data_error` reverts to the general-constraint
shape exactly when the name-and-span lookup fails for both regions, or the
category is Assignment and the enclosing item is a plain function rather than
a closure; in every other case it buffers the "borrowed data escapes outside
of {closure|function}" diagnostic. -/
theorem report_escaping_revert (env : Env) (fr outlived_fr : Nat)
    (category : ConstraintCategory) (span : Nat)
    (errors_buffer : List Diagnostic) :
    (((env.get_var_name_and_span fr = none ∧
        env.get_var_name_and_span outlived_fr = none) ∨
      (category = ConstraintCategory.Assignment ∧ env.is_closure = false)) →
      report_escaping_data_error env fr outlived_fr category span errors_buffer =
        report_general_error env fr true outlived_fr false category span
          errors_buffer) ∧
    (¬ ((env.get_var_name_and_span fr = none ∧
        env.get_var_name_and_span outlived_fr = none) ∨
      (category = ConstraintCategory.Assignment ∧ env.is_closure = false)) →
      ∃ d, report_escaping_data_error env fr outlived_fr category span
          errors_buffer = errors_buffer ++ [d] ∧
        d.message = DiagMessage.borrowedDataEscapes
          (if env.is_closure then EscapesFrom.closure else EscapesFrom.function)) := by
  have hesc : ((if env.is_closure then EscapesFrom.closure
      else EscapesFrom.function) = EscapesFrom.function) ↔
      env.is_closure = false := by
    cases h : env.is_closure <;> simp
  constructor
  · intro hcond
    have hc : (env.get_var_name_and_span fr = none ∧
        env.get_var_name_and_span outlived_fr = none) ∨
        (category = ConstraintCategory.Assignment ∧
          (if env.is_closure then EscapesFrom.closure else EscapesFrom.function) =
            EscapesFrom.function) := by
      rcases hcond with h | ⟨h1, h2⟩
      · exact Or.inl h
      · exact Or.inr ⟨h1, hesc.2 h2⟩
    unfold report_escaping_data_error
    dsimp only
    rw [if_pos hc]
  · intro hcond
    have hc : ¬ ((env.get_var_name_and_span fr = none ∧
        env.get_var_name_and_span outlived_fr = none) ∨
        (category = ConstraintCategory.Assignment ∧
          (if env.is_closure then EscapesFrom.closure else EscapesFrom.function) =
            EscapesFrom.function)) := by
      intro h
      apply hcond
      rcases h with h | ⟨h1, h2⟩
      · exact Or.inl h
      · exact Or.inr ⟨h1, hesc.1 h2⟩
    unfold report_escaping_data_error
    dsimp only
    rw [if_neg hc]
    refine ⟨_, rfl, ?_⟩
    rcases h5 : env.get_var_name_and_span outlived_fr with _ | ⟨_ | n1, s1⟩ <;>
      rcases h6 : env.get_var_name_and_span fr with _ | ⟨_ | n2, s2⟩ <;>
        rfl

theorem report_escaping_revert_applied :
    report_escaping_data_error envBase 0 3 ConstraintCategory.CallArgument 5 [] =
      report_general_error envBase 0 true 3 false
        ConstraintCategory.CallArgument 5 [] :=
  (report_escaping_revert envBase 0 3 ConstraintCategory.CallArgument 5 []).1
    (Or.inl ⟨rfl, rfl⟩)

/-- Claim C8: one call to `report_error` (on a violation for which the blame
computation succeeds) returns the buffer extended by exactly one diagnostic,
never removing or modifying entries already present; and when the specialized
nice-region collaborator reports the error itself, it returns the buffer
unchanged. -/
theorem report_error_buffer_discipline (g : ConstraintGraph) (env : Env)
    (fr outlived_fr : Nat) (errors_buffer : List Diagnostic)
    {category : ConstraintCategory} {span target : Nat}
    (hbb : best_blame_constraint g fr (fun r => r == outlived_fr) =
      some (category, span, target)) :
    ∃ newBuf, report_error g env fr outlived_fr errors_buffer = some newBuf ∧
      ((match env.to_error_region fr, env.to_error_region outlived_fr with
        | some f, some o => env.try_report_from_nll span o f
        | _, _ => false) = true → newBuf = errors_buffer) ∧
      ((match env.to_error_region fr, env.to_error_region outlived_fr with
        | some f, some o => env.try_report_from_nll span o f
        | _, _ => false) = false → ∃ d, newBuf = errors_buffer ++ [d]) := by
  cases hn : (match env.to_error_region fr, env.to_error_region outlived_fr with
      | some f, some o => env.try_report_from_nll span o f
      | _, _ => false) with
  | true =>
    refine ⟨errors_buffer, ?_, fun _ => rfl, ?_⟩
    · simp only [report_error, hbb]
      rw [hn]
      simp
    · intro hf
      exact Bool.noConfusion hf
  | false =>
    obtain ⟨newBuf, d, hnb, hd⟩ : ∃ newBuf d,
        report_error g env fr outlived_fr errors_buffer = some newBuf ∧
          newBuf = errors_buffer ++ [d] := by
      simp only [report_error, hbb]
      rw [hn]
      simp only [Bool.false_eq_true, if_false]
      cases hb1 : env.is_local_free_region fr <;>
        cases hb2 : env.is_local_free_region outlived_fr <;>
          cases category <;>
            first
              | (obtain ⟨d, hd, _⟩ := report_general_error_appends env fr
                  (env.is_local_free_region fr) outlived_fr
                  (env.is_local_free_region outlived_fr) _ span errors_buffer
                 exact ⟨_, d, rfl, by rw [hb1, hb2] at hd; exact hd⟩)
              | (obtain ⟨d, hd⟩ := report_escaping_error_appends env fr
                  outlived_fr _ span errors_buffer
                 exact ⟨_, d, rfl, hd⟩)
    refine ⟨newBuf, hnb, ?_, fun _ => ⟨d, hd⟩⟩
    intro ht
    exact Bool.noConfusion ht

theorem report_error_buffer_discipline_applied :
    ∃ newBuf, report_error gA envBase 0 3 [] = some newBuf ∧
      ((match envBase.to_error_region 0, envBase.to_error_region 3 with
        | some f, some o => envBase.try_report_from_nll 3 o f
        | _, _ => false) = true → newBuf = []) ∧
      ((match envBase.to_error_region 0, envBase.to_error_region 3 with
        | some f, some o => envBase.try_report_from_nll 3 o f
        | _, _ => false) = false → ∃ d, newBuf = [] ++ [d]) :=
  report_error_buffer_discipline gA envBase 0 3 []
    (show best_blame_constraint gA 0 (fun r => r == 3) =
      some (ConstraintCategory.Assignment, 3, 3) by decide)

/-- Claim C9: `add_static_impl_trait_suggestion` adds something to the
diagnostic only when `fr` resolves to an error region, `outlived_fr` resolves
to the static region, and the suitable item's declared return type is an
opaque (impl-Trait) type; in that case a TypeOutlives-static predicate in the
instantiated bound set yields only the replace-with-static help, otherwise a
retrievable snippet yields the machine-applicable append-constraint edit, and
a failed snippet retrieval suppresses only the edit while
`report_general_error` still buffers the diagnostic. -/
theorem static_impl_trait_suggestion_spec (env : Env) (diag : Diagnostic)
    (fr : Nat) (fr_name : RegionName) (outlived_fr : Nat) :
    ((¬ ∃ f did substs, env.to_error_region fr = some f ∧
        env.to_error_region outlived_fr = some RegionKind.ReStatic ∧
        ((env.is_suitable_region f).map env.return_type_impl_trait).getD none =
          some (TyKind.OpaqueTy did substs)) →
      add_static_impl_trait_suggestion env diag fr fr_name outlived_fr = diag) ∧
    (∀ f did substs, env.to_error_region fr = some f →
      env.to_error_region outlived_fr = some RegionKind.ReStatic →
      ((env.is_suitable_region f).map env.return_type_impl_trait).getD none =
        some (TyKind.OpaqueTy did substs) →
      (containsStaticOutlives (env.instantiated_predicates did substs) = true →
        add_static_impl_trait_suggestion env diag fr fr_name outlived_fr =
          { diag with helps :=
              diag.helps ++ [DiagHelp.replaceWithStatic fr_name] }) ∧
      (containsStaticOutlives (env.instantiated_predicates did substs) = false →
        (∀ snippet, env.span_to_snippet (env.def_span did) = some snippet →
          add_static_impl_trait_suggestion env diag fr fr_name outlived_fr =
            { diag with suggestions := diag.suggestions ++
                [DiagSuggestion.appendConstraint (env.def_span did) snippet
                  (suggestableName fr_name)] }) ∧
        (env.span_to_snippet (env.def_span did) = none →
          add_static_impl_trait_suggestion env diag fr fr_name outlived_fr =
            diag))) ∧
    (∀ l : List Predicate, containsStaticOutlives l = true ↔
      ∃ p ∈ l, ∃ ty, p = Predicate.TypeOutlives ty RegionKind.ReStatic) ∧
    (∀ frl oll category span buf, ∃ d,
      report_general_error env fr frl outlived_fr oll category span buf =
        buf ++ [d]) := by
  refine ⟨?_, ?_, ?_, ?_⟩
  · intro hno
    unfold add_static_impl_trait_suggestion
    dsimp only
    rcases h1 : env.to_error_region fr with _ | f
    · rfl
    rcases h2 : env.to_error_region outlived_fr with _ | o
    · rfl
    cases o with
    | ReOther k => rfl
    | ReStatic =>
      dsimp only
      rcases h3 : ((env.is_suitable_region f).map env.return_type_impl_trait).getD
          none with _ | ty
      · rfl
      cases ty with
      | OtherTy k => rfl
      | OpaqueTy did substs => exact absurd ⟨f, did, substs, h1, h2, h3⟩ hno
  · intro f did substs h1 h2 h3
    unfold add_static_impl_trait_suggestion
    rw [h1, h2]
    dsimp only
    rw [h3]
    dsimp only
    constructor
    · intro hcs
      rw [if_pos hcs]
      rfl
    · intro hcs
      rw [if_neg (by simp [hcs])]
      constructor
      · intro snippet hsnip
        rw [hsnip]
        rfl
      · intro hsnip
        rw [hsnip]
  · intro l
    induction l with
    | nil => simp [containsStaticOutlives]
    | cons p rest ih =>
      cases p with
      | TypeOutlives ty rk =>
        cases rk with
        | ReStatic =>
          simp only [containsStaticOutlives]
          constructor
          · intro _
            exact ⟨Predicate.TypeOutlives ty RegionKind.ReStatic,
              List.mem_cons_self _ _, ty, rfl⟩
          · intro _
            trivial
        | ReOther k =>
          simp only [containsStaticOutlives]
          rw [ih]
          constructor
          · rintro ⟨p, hp, ty', rfl⟩
            exact ⟨Predicate.TypeOutlives ty' RegionKind.ReStatic,
              List.mem_cons_of_mem _ hp, ty', rfl⟩
          · rintro ⟨p, hp, ty', rfl⟩
            rcases List.mem_cons.1 hp with heq | hp'
            · exact absurd heq.symm (by simp)
            · exact ⟨_, hp', ty', rfl⟩
      | OtherPredicate k =>
        simp only [containsStaticOutlives]
        rw [ih]
        constructor
        · rintro ⟨p, hp, ty', rfl⟩
          exact ⟨Predicate.TypeOutlives ty' RegionKind.ReStatic,
            List.mem_cons_of_mem _ hp, ty', rfl⟩
        · rintro ⟨p, hp, ty', rfl⟩
          rcases List.mem_cons.1 hp with heq | hp'
          · exact absurd heq.symm (by simp)
          · exact ⟨_, hp', ty', rfl⟩
  · intro frl oll category span buf
    obtain ⟨d, hd, _⟩ := report_general_error_appends env fr frl outlived_fr oll
      category span buf
    exact ⟨d, hd⟩

theorem static_impl_trait_suggestion_spec_applied :
    add_static_impl_trait_suggestion env9
      (struct_span_err 5 DiagMessage.unsatisfiedLifetimeConstraints) 0
      (RegionName.Named 7) 3 =
      { struct_span_err 5 DiagMessage.unsatisfiedLifetimeConstraints with
        helps := (struct_span_err 5
          DiagMessage.unsatisfiedLifetimeConstraints).helps ++
          [DiagHelp.replaceWithStatic (RegionName.Named 7)] } :=
  ((static_impl_trait_suggestion_spec env9
      (struct_span_err 5 DiagMessage.unsatisfiedLifetimeConstraints) 0
      (RegionName.Named 7) 3).2.1 (RegionKind.ReOther 0) 0 0 (by decide)
    (by decide) (by decide)).1 (by decide)
